import Mathlib

/-!
# Verification of the protoc output-reconciliation engine

This file gives a shallow embedding of the `run` function of
`go/tools/builders/protoc.go` (the output-reconciliation core) and proves
properties of it.

The Go code keeps two maps, `files` (keyed by relative path) and `byBase`
(keyed by basename), whose values are *pointers* to shared mutable
`genFileInfo` records.  We model the pointer structure explicitly: records
live in a heap addressed by `Addr`, and both maps store addresses, so that
a mutation through one map is visible through the other, exactly as in the
source.  Heap addresses are chosen deterministically (the position in the
expected list for registered records, the relative path for records
allocated during the walk), which keeps allocation stable and the whole
development executable.

Filesystem effects are modelled as data: the scratch tree that `protoc`
produced is the list of entries `filepath.Walk` visits (directories with
their `os.Mkdir` outcome, files with their content), and the final output
tree is an association list of written files.  The temporary directory is
modelled by the path prefix `tmp/`.  `filepath.Walk`'s return value is
discarded in the source (`run` never checks it); `runCore` reproduces this
by dropping the abort flag of `walkList`.
-/

/-- The three outcomes of `os.Mkdir` that the walk callback distinguishes:
success, `os.IsExist`, and any other error. -/
inductive MkdirOutcome
  | okMk
  | existsMk
  | failMk
deriving DecidableEq, Repr

/-- One entry visited by `filepath.Walk` over the scratch directory, in
visit order: a directory (with the outcome its `os.Mkdir` call will have)
or a regular file with its relative path and content. -/
inductive WalkEntry
  | dir : String → MkdirOutcome → WalkEntry
  | file : String → String → WalkEntry
deriving DecidableEq, Repr

/-- Heap address of a `genFileInfo` record: `exp i` for the record created
when registering the `i`-th expected path, `disc rel` for the record
allocated when the walk discovers the unmatched file `rel`, and `src rel`
for the record allocated in the exact-match branch for the file `rel`. -/
inductive Addr
  | exp : Nat → Addr
  | disc : String → Addr
  | src : String → Addr
deriving DecidableEq, Repr

/-- The `genFileInfo` struct of protoc.go. `fromIdx` is the `from` pointer,
as a heap address. -/
structure GenFileInfo where
  base : String
  path : String
  expected : Bool
  created : Bool
  fromIdx : Option Addr
  unique : Bool
  ambiguious : Bool
deriving DecidableEq, Repr

/-- The mutable state of `run`: the record heap and the two maps `files`
and `byBase` (storing heap addresses, i.e. pointers), plus the insertion
order of the keys of `files` (used to model map iteration). -/
structure Reg where
  heap : Addr → Option GenFileInfo
  files : String → Option Addr
  byBase : String → Option Addr
  fileKeys : List String

/-- Point update of a finite map modelled as a function. -/
def upd {α β : Type} [DecidableEq α] (f : α → Option β) (k : α) (v : β) : α → Option β :=
  fun a => if a = k then some v else f a

/-- Mutate the record stored at address `k`, if any. -/
def hmod (h : Addr → Option GenFileInfo) (k : Addr) (f : GenFileInfo → GenFileInfo) :
    Addr → Option GenFileInfo :=
  fun a => if a = k then (h k).map f else h a

/-- `filepath.Base` for the slash-separated relative paths the tool deals
with: the final path component (everything after the last `/`). -/
def basenameOf (p : String) : String :=
  ⟨p.data.foldl (fun acc c => if c = '/' then [] else acc ++ [c]) []⟩

/-- `strings.HasSuffix`. -/
def hasSuffix (s suf : String) : Bool :=
  suf.data.isSuffixOf s.data

/-- Number of entries of the expected list whose basename is `b`. -/
def countBase (l : List String) (b : String) : Nat :=
  (l.filter (fun p => basenameOf p = b)).length

/-- The empty registry state. -/
def emptyReg : Reg :=
  { heap := fun _ => none, files := fun _ => none, byBase := fun _ => none, fileKeys := [] }

/-- Registration of the `i`-th expected path `p` (protoc.go lines 113-127):
create the record with `expected = true` and `unique = true`, store it in
`files` under `p`, then either mark this record and the `byBase` record
non-unique (basename already claimed) or claim the basename. -/
def registerExpected (st : Reg) (i : Nat) (p : String) : Reg :=
  let b := basenameOf p
  let a := Addr.exp i
  let info : GenFileInfo :=
    { path := p, base := b, expected := true, created := false,
      fromIdx := none, unique := true, ambiguious := false }
  let keys := if (st.files p).isSome then st.fileKeys else st.fileKeys ++ [p]
  let st1 : Reg :=
    { st with heap := upd st.heap a info, files := upd st.files p a, fileKeys := keys }
  match st1.byBase b with
  | some c =>
      { st1 with
        heap := hmod (hmod st1.heap a (fun r => { r with unique := false })) c
          (fun r => { r with unique := false }) }
  | none => { st1 with byBase := upd st1.byBase b a }

/-- Register a list of expected paths starting at index `i`. -/
def registerList (st : Reg) (i : Nat) : List String → Reg
  | [] => st
  | p :: rest => registerList (registerExpected st i p) (i + 1) rest

/-- Build the registry from the expected-path list (the first loop of
`run`, before the walk). -/
def buildReg (expected : List String) : Reg :=
  registerList emptyReg 0 expected

/-- The temporary output directory of the model. -/
def tmpPrefix : String := "tmp/"

/-- The record allocated for a discovered file (protoc.go lines 149-153):
`created = true`, all other flags zero-valued. -/
def discInfo (rel : String) : GenFileInfo :=
  { path := tmpPrefix ++ rel, base := basenameOf rel, expected := false, created := true,
    fromIdx := none, unique := false, ambiguious := false }

/-- Processing of one discovered regular `.go` file at relative path `rel`
(protoc.go lines 149-175).  A fresh record is allocated for the file; if
`files` already holds `rel` the exact-match branch fires (mark the found
record created and point its `from` at the fresh record); otherwise the
fresh record is added to `files` and the basename-fallback switch runs. -/
def walkFileStep (st : Reg) (rel : String) : Reg :=
  let b := basenameOf rel
  let info := discInfo rel
  match st.files rel with
  | some a =>
      let d := Addr.src rel
      { st with
        heap := hmod (upd st.heap d info) a
          (fun r => { r with created := true, fromIdx := some d }) }
  | none =>
      let d := Addr.disc rel
      let st1 : Reg :=
        { st with
          heap := upd st.heap d info,
          files := upd st.files rel d,
          fileKeys := st.fileKeys ++ [rel] }
      match st1.byBase b with
      | none => st1
      | some c =>
          match st1.heap c with
          | none => st1
          | some copyTo =>
              if copyTo.unique = false then st1
              else
                match copyTo.fromIdx with
                | some _ =>
                    { st1 with
                      heap := hmod (hmod st1.heap c (fun r => { r with ambiguious := true })) d
                        (fun r => { r with ambiguious := true }) }
                | none =>
                    { st1 with
                      heap := hmod
                        (hmod st1.heap c (fun r => { r with fromIdx := some d, created := true }))
                        d (fun r => { r with expected := true }) }

/-- One step of the walk callback: directories are recreated under the
output root (`os.IsExist` ignored, any other error aborts the walk);
regular files are processed when they carry the `.go` suffix. -/
def walkStep (st : Reg) : WalkEntry → Option Reg
  | .dir _ o => if o = .failMk then none else some st
  | .file rel _ => if hasSuffix rel ".go" then some (walkFileStep st rel) else some st

/-- The whole walk: fold the callback over the visited entries, stopping
at the first aborting entry.  The boolean records whether the walk aborted
(i.e. whether `filepath.Walk` returned a non-nil error). -/
def walkList (st : Reg) : List WalkEntry → Reg × Bool
  | [] => (st, false)
  | e :: rest =>
      match walkStep st e with
      | none => (st, true)
      | some st1 => walkList st1 rest

/-- The relative paths of the file entries of a walk. -/
def fileRels : List WalkEntry → List String
  | [] => []
  | .file rel _ :: rest => rel :: fileRels rest
  | .dir _ _ :: rest => fileRels rest

/-- The scratch tree as a read-only filesystem: `ioutil.ReadFile` on a path
under the temporary directory returns the content of the corresponding
walked file. -/
def scratchOf : List WalkEntry → String → Option String
  | [], _ => none
  | .file rel c :: rest, q => if q = tmpPrefix ++ rel then some c else scratchOf rest q
  | .dir _ _ :: rest, q => scratchOf rest q

/-- The content written for an expected output the compiler did not
produce (protoc.go line 184). -/
def placeholderContent : String := "// +build ignore\n\npackage ignore"

/-- The error `run` can return from the emission pass: the aggregated
ambiguity report (the list of paths printed into the buffer, to which the
go_package hint is appended), or a failed `ioutil.ReadFile`. -/
inductive RunErr
  | ambiguous : List String → RunErr
  | readFail : String → RunErr
deriving DecidableEq, Repr

/-- Emission for a single record (the switch of protoc.go lines 179-200):
placeholder for an expected-but-not-created record, an ambiguity line for
an expected ambiguous record, a verbatim copy when `from` is set, nothing
otherwise.  `none` signals a failed read of the source file. -/
def emitRecord (scratch : String → Option String) (heap : Addr → Option GenFileInfo)
    (out : List (String × String)) (buf : List String) (r : GenFileInfo) :
    Option (List (String × String) × List String) :=
  if r.expected && !r.created then some ((r.path, placeholderContent) :: out, buf)
  else if r.expected && r.ambiguious then some (out, buf ++ [r.path])
  else
    match r.fromIdx with
    | some a =>
        match heap a with
        | some srcRec =>
            match scratch srcRec.path with
            | some data => some ((r.path, data) :: out, buf)
            | none => none
        | none => none
    | none => some (out, buf)

/-- The emission loop of `run` (protoc.go lines 177-205), iterating the
records of `files`.  Faithful to the source, the non-empty-buffer check
runs inside the loop after every record, so the loop returns the
aggregated error as soon as the buffer is non-empty. -/
def emitList (scratch : String → Option String) (st : Reg) :
    List String → List (String × String) → List String →
    List (String × String) × Option RunErr
  | [], out, _ => (out, none)
  | k :: rest, out, buf =>
      match st.files k with
      | none => emitList scratch st rest out buf
      | some a =>
          match st.heap a with
          | none => emitList scratch st rest out buf
          | some r =>
              match emitRecord scratch st.heap out buf r with
              | none => (out, some (.readFail r.path))
              | some (out1, buf1) =>
                  if buf1.isEmpty then emitList scratch st rest out1 buf1
                  else (out1, some (.ambiguous buf1))

/-- The reconciliation core of `run`: build the registry from the expected
list, walk the scratch tree (the result of `filepath.Walk` is discarded,
exactly as in the source), then run the emission pass over the records of
`files` in key-insertion order.  Returns the final output tree (newest
write first) and the error `run` returns, if any. -/
def runCore (expected : List String) (entries : List WalkEntry) :
    List (String × String) × Option RunErr :=
  let reg := buildReg expected
  let st := (walkList reg entries).1
  emitList (scratchOf entries) st st.fileKeys [] []

/-- Whether the walk over `entries` aborted with an error (the error that
`run` discards). -/
def runAborted (expected : List String) (entries : List WalkEntry) : Bool :=
  (walkList (buildReg expected) entries).2

/-- The record the registry associates with path `p`. -/
def recAt (st : Reg) (p : String) : Option GenFileInfo :=
  match st.files p with
  | some a => st.heap a
  | none => none

/-- The `from` pointer of the record at path `p`, if the record exists. -/
def recFrom (st : Reg) (p : String) : Option Addr :=
  match recAt st p with
  | some r => r.fromIdx
  | none => none

/-- Number of occurrences of the path `p` itself in the expected list. -/
def countPath (l : List String) (p : String) : Nat :=
  (l.filter (fun q => q = p)).length

theorem upd_same {α β : Type} [DecidableEq α] (f : α → Option β) (k : α) (v : β) :
    upd f k v k = some v := by
  simp [upd]

theorem upd_other {α β : Type} [DecidableEq α] (f : α → Option β) {k a : α} (v : β)
    (h : a ≠ k) : upd f k v a = f a := by
  simp [upd, h]

theorem hmod_same (h : Addr → Option GenFileInfo) (k : Addr) (f : GenFileInfo → GenFileInfo) :
    hmod h k f k = (h k).map f := by
  simp [hmod]

theorem hmod_other (h : Addr → Option GenFileInfo) {k a : Addr} (f : GenFileInfo → GenFileInfo)
    (hne : a ≠ k) : hmod h k f a = h a := by
  simp [hmod, hne]

theorem countBase_append (l₁ l₂ : List String) (b : String) :
    countBase (l₁ ++ l₂) b = countBase l₁ b + countBase l₂ b := by
  simp [countBase, List.filter_append]

theorem countBase_singleton (p : String) (b : String) :
    countBase [p] b = if basenameOf p = b then 1 else 0 := by
  by_cases h : basenameOf p = b <;> simp [countBase, h]

theorem countBase_pos_of_mem {l : List String} {p : String} (h : p ∈ l) :
    0 < countBase l (basenameOf p) := by
  induction l with
  | nil => cases h
  | cons q rest ih =>
      rcases List.mem_cons.mp h with h1 | h2
      · subst h1
        simp [countBase, List.filter_cons]
      · have := ih h2
        by_cases hq : basenameOf q = basenameOf p <;>
          simp [countBase, List.filter_cons, hq] at this ⊢ <;> omega

theorem countPath_le_countBase (l : List String) (p : String) :
    countPath l p ≤ countBase l (basenameOf p) := by
  induction l with
  | nil => simp [countPath, countBase]
  | cons q rest ih =>
      simp only [countPath, countBase, List.filter_cons] at ih ⊢
      by_cases hq : q = p
      · subst hq
        simp
        omega
      · by_cases hb : basenameOf q = basenameOf p <;> simp [hq, hb] <;> omega

theorem countPath_pos_of_mem {l : List String} {p : String} (h : p ∈ l) :
    0 < countPath l p := by
  induction l with
  | nil => cases h
  | cons q rest ih =>
      rcases List.mem_cons.mp h with h1 | h2
      · subst h1
        simp [countPath, List.filter_cons]
      · have := ih h2
        by_cases hq : q = p <;> simp [countPath, List.filter_cons, hq] at this ⊢ <;> omega

/-- The invariant of registry construction: after registering the paths of
`done` (in order, with heap addresses `Addr.exp 0 .. Addr.exp (done.length - 1)`),
the maps and heap have this shape.  It captures in particular that
`unique` on every reachable record is true exactly when the record's
basename occurs at most once in `done`. -/
structure RegInv (done : List String) (st : Reg) : Prop where
  files_dom : ∀ p, (st.files p).isSome ↔ p ∈ done
  files_exp : ∀ p a, st.files p = some a → ∃ i, a = Addr.exp i ∧ i < done.length
  files_rec : ∀ p a, st.files p = some a → ∃ r, st.heap a = some r ∧
      r.path = p ∧ r.base = basenameOf p ∧ r.expected = true ∧ r.created = false ∧
      r.fromIdx = none ∧ r.ambiguious = false ∧
      (r.unique = true ↔ countBase done (basenameOf p) ≤ 1)
  files_inj : ∀ p q a, st.files p = some a → st.files q = some a → p = q
  byBase_dom : ∀ b, (st.byBase b).isSome ↔ 0 < countBase done b
  byBase_exp : ∀ b a, st.byBase b = some a → ∃ i, a = Addr.exp i ∧ i < done.length
  byBase_rec : ∀ b a, st.byBase b = some a → ∃ r, st.heap a = some r ∧
      r.base = b ∧ r.expected = true ∧ r.created = false ∧ r.fromIdx = none ∧
      r.ambiguious = false ∧ (r.unique = true ↔ countBase done b ≤ 1)
  byBase_files : ∀ b a r, st.byBase b = some a → st.heap a = some r →
      countBase done b ≤ 1 → st.files r.path = some a
  heap_exp_only : ∀ q, st.heap (Addr.disc q) = none ∧ st.heap (Addr.src q) = none
  keys_dom : ∀ p, p ∈ st.fileKeys ↔ p ∈ done
  keys_nodup : st.fileKeys.Nodup

theorem regInv_empty : RegInv [] emptyReg := by
  constructor <;> simp [emptyReg, countBase, List.Nodup]

/-- C7: for expected `["out/svc.pb.go"]` and a scratch tree containing only
`generated/svc.pb.go`, the unique basename triggers a fallback match, the
expected path receives exactly the bytes of `generated/svc.pb.go`, and the
run returns success (no error). -/
theorem c7_unique_basename_fallback :
    runCore ["out/svc.pb.go"]
      [.dir "generated" .okMk, .file "generated/svc.pb.go" "SVC"] =
      ([("out/svc.pb.go", "SVC")], none) := by decide

/-- C6: for expected `["a/foo.gen.go", "b/foo.gen.go"]` and a scratch tree
containing only `x/foo.gen.go`, the shared basename makes both records
ineligible for fallback, neither exact path exists, so both expected paths
receive the placeholder content and the run returns success. -/
theorem c6_shared_basename_placeholders :
    runCore ["a/foo.gen.go", "b/foo.gen.go"]
      [.dir "x" .okMk, .file "x/foo.gen.go" "DATA"] =
      ([("b/foo.gen.go", placeholderContent), ("a/foo.gen.go", placeholderContent)], none) ∧
    recFrom (walkList (buildReg ["a/foo.gen.go", "b/foo.gen.go"])
      [.dir "x" .okMk, .file "x/foo.gen.go" "DATA"]).1 "a/foo.gen.go" = none ∧
    recFrom (walkList (buildReg ["a/foo.gen.go", "b/foo.gen.go"])
      [.dir "x" .okMk, .file "x/foo.gen.go" "DATA"]).1 "b/foo.gen.go" = none := by decide

/-- C1 (code bug): the buffer check sits inside the emission loop, so with
expected `["a/x.go", "b/y.go", "c/z.go"]` and a scratch tree that makes
both `a/x.go` and `b/y.go` ambiguous (two same-basename candidates each),
the run aborts at the first ambiguous record: the error names only
`a/x.go` even though `b/y.go` is also marked ambiguous after the walk, and
the still-satisfiable record `c/z.go` is not emitted (no placeholder is
written, the output tree is empty). -/
theorem c1_early_return_drops_report :
    runCore ["a/x.go", "b/y.go", "c/z.go"]
      [.dir "p" .okMk, .file "p/x.go" "P", .dir "q" .okMk, .file "q/x.go" "Q",
       .dir "r" .okMk, .file "r/y.go" "R", .dir "s" .okMk, .file "s/y.go" "S"] =
      ([], some (.ambiguous ["a/x.go"])) ∧
    (recAt (walkList (buildReg ["a/x.go", "b/y.go", "c/z.go"])
      [.dir "p" .okMk, .file "p/x.go" "P", .dir "q" .okMk, .file "q/x.go" "Q",
       .dir "r" .okMk, .file "r/y.go" "R", .dir "s" .okMk, .file "s/y.go" "S"]).1
        "b/y.go").map (fun r => r.ambiguious) = some true := by decide

/-- C2 (code bug): the result of `filepath.Walk` is discarded by `run`, so
when the very first directory of the walk fails `os.Mkdir` with an error
other than already-exists, the walk aborts (its error is non-nil) but the
run does not fail: it proceeds to emission, writes a placeholder for the
expected file the compiler actually produced, and returns success. -/
theorem c2_walk_error_discarded :
    runAborted ["a/f.go"] [.dir "Abad" .failMk, .dir "a" .okMk, .file "a/f.go" "REAL"] = true ∧
    runCore ["a/f.go"] [.dir "Abad" .failMk, .dir "a" .okMk, .file "a/f.go" "REAL"] =
      ([("a/f.go", placeholderContent)], none) := by decide

/-- C3 counterexample: expected `["a/x.go"]`, scratch tree `a/x.go` (an
exact-path match) plus `b/x.go` (a second file with the same basename).
The exact match binds the record first, but the later basename candidate
still marks it ambiguous: the run reports `a/x.go` as ambiguous and does
not copy the exact-match file's bytes, contradicting the claim that an
exact-path-matched record is never also reported as ambiguous. -/
theorem c3_counterexample :
    runCore ["a/x.go"]
      [.dir "a" .okMk, .file "a/x.go" "GOOD", .dir "b" .okMk, .file "b/x.go" "EVIL"] =
      ([], some (.ambiguous ["a/x.go"])) ∧
    ¬ ((runCore ["a/x.go"]
      [.dir "a" .okMk, .file "a/x.go" "GOOD", .dir "b" .okMk, .file "b/x.go" "EVIL"]).1.lookup
        "a/x.go" = some "GOOD") := by decide

/-- C4 counterexample: expected `["z/a.go"]`, scratch files walked in
lexical order `b/a.go` then `z/a.go`.  After the first file the record's
`from` is the basename-fallback candidate `b/a.go`; after the second file
(the exact-path match) `from` has been reassigned to `z/a.go` — so
`resolvedSource`, once set, is not never-reassigned. -/
theorem c4_counterexample :
    recFrom (walkList (buildReg ["z/a.go"]) [.dir "b" .okMk, .file "b/a.go" "B"]).1 "z/a.go" =
      some (.disc "b/a.go") ∧
    recFrom (walkList (buildReg ["z/a.go"])
      [.dir "b" .okMk, .file "b/a.go" "B", .dir "z" .okMk, .file "z/a.go" "Z"]).1 "z/a.go" =
      some (.src "z/a.go") ∧
    ¬ (some (Addr.disc "b/a.go") = some (Addr.src "z/a.go")) := by decide

/-- C5 counterexample: expected `["a/foo.gen.go", "b/foo.gen.go"]` (shared
basename), scratch tree containing only the basename-only match
`x/foo.gen.go`.  The run does not report failure: it returns success, and
both records are placeholder-filled — contradicting the claim that the run
reports failure and that neither record is placeholder-filled. -/
theorem c5_counterexample :
    runCore ["a/foo.gen.go", "b/foo.gen.go"] [.dir "x" .okMk, .file "x/foo.gen.go" "C"] =
      ([("b/foo.gen.go", placeholderContent), ("a/foo.gen.go", placeholderContent)], none) ∧
    ¬ ((runCore ["a/foo.gen.go", "b/foo.gen.go"]
        [.dir "x" .okMk, .file "x/foo.gen.go" "C"]).2.isSome = true) := by decide

theorem files_ne_fresh {done : List String} {st : Reg} (inv : RegInv done st)
    {q : String} {a : Addr} (h : st.files q = some a) : a ≠ Addr.exp done.length := by
  obtain ⟨i, rfl, hi⟩ := inv.files_exp q a h
  intro hc
  cases hc
  omega

theorem byBase_ne_fresh {done : List String} {st : Reg} (inv : RegInv done st)
    {b : String} {a : Addr} (h : st.byBase b = some a) : a ≠ Addr.exp done.length := by
  obtain ⟨i, rfl, hi⟩ := inv.byBase_exp b a h
  intro hc
  cases hc
  omega

theorem hmod_upd_same (h : Addr → Option GenFileInfo) (k : Addr) (v : GenFileInfo)
    (f : GenFileInfo → GenFileInfo) : hmod (upd h k v) k f = upd h k (f v) := by
  funext a
  by_cases ha : a = k
  · subst ha
    simp [hmod, upd]
  · simp [hmod, upd, ha]

theorem hmod_upd_comm (h : Addr → Option GenFileInfo) {k c : Addr} (v : GenFileInfo)
    (f : GenFileInfo → GenFileInfo) (hne : k ≠ c) :
    hmod (upd h k v) c f = upd (hmod h c f) k v := by
  funext a
  by_cases ha : a = k
  · subst ha
    simp [hmod, upd, hne]
  · by_cases hc : a = c <;> simp [hmod, upd, ha, hc, Ne.symm hne]

theorem two_mem_le_length {α : Type} {l : List α} {x y : α} (hx : x ∈ l) (hy : y ∈ l)
    (hne : x ≠ y) : 2 ≤ l.length := by
  induction l with
  | nil => cases hx
  | cons z rest ih =>
      rcases List.mem_cons.mp hx with rfl | hx2
      · rcases List.mem_cons.mp hy with rfl | hy2
        · exact absurd rfl hne
        · have := List.length_pos.mpr (List.ne_nil_of_mem hy2)
          simp only [List.length_cons]
          omega
      · have := List.length_pos.mpr (List.ne_nil_of_mem hx2)
        simp only [List.length_cons]
        omega

theorem two_le_countBase {l : List String} {q₁ q₂ : String} {b : String}
    (h1 : q₁ ∈ l) (h2 : q₂ ∈ l) (hne : q₁ ≠ q₂)
    (hb1 : basenameOf q₁ = b) (hb2 : basenameOf q₂ = b) : 2 ≤ countBase l b := by
  have m1 : q₁ ∈ l.filter (fun p => basenameOf p = b) :=
    List.mem_filter.mpr ⟨h1, by simp [hb1]⟩
  have m2 : q₂ ∈ l.filter (fun p => basenameOf p = b) :=
    List.mem_filter.mpr ⟨h2, by simp [hb2]⟩
  exact two_mem_le_length m1 m2 hne

/-- The record `registerExpected` stores before the basename bookkeeping. -/
def expInfo (p : String) : GenFileInfo :=
  { path := p, base := basenameOf p, expected := true, created := false,
    fromIdx := none, unique := true, ambiguious := false }

theorem registerExpected_none_eq {st : Reg} {i : Nat} {p : String}
    (hb : st.byBase (basenameOf p) = none) :
    registerExpected st i p =
      { heap := upd st.heap (Addr.exp i) (expInfo p),
        files := upd st.files p (Addr.exp i),
        byBase := upd st.byBase (basenameOf p) (Addr.exp i),
        fileKeys := if (st.files p).isSome then st.fileKeys else st.fileKeys ++ [p] } := by
  unfold registerExpected
  dsimp only
  rw [hb]
  rfl

theorem registerExpected_some_eq {st : Reg} {i : Nat} {p : String} {c : Addr}
    (hb : st.byBase (basenameOf p) = some c) :
    registerExpected st i p =
      { heap := hmod (hmod (upd st.heap (Addr.exp i) (expInfo p)) (Addr.exp i)
          (fun r => { r with unique := false })) c (fun r => { r with unique := false }),
        files := upd st.files p (Addr.exp i),
        byBase := st.byBase,
        fileKeys := if (st.files p).isSome then st.fileKeys else st.fileKeys ++ [p] } := by
  unfold registerExpected
  dsimp only
  rw [hb]
  rfl

theorem registerExpected_inv_none {done : List String} {st : Reg} (inv : RegInv done st)
    (p : String) (hb : st.byBase (basenameOf p) = none) :
    RegInv (done ++ [p]) (registerExpected st done.length p) := by
  have hcnt : ∀ b, countBase (done ++ [p]) b =
      countBase done b + (if basenameOf p = b then 1 else 0) := by
    intro b
    rw [countBase_append, countBase_singleton]
  have hc0 : countBase done (basenameOf p) = 0 := by
    have h1 := inv.byBase_dom (basenameOf p)
    rw [hb] at h1
    simp at h1
    omega
  have hpnotin : p ∉ done := by
    intro hmem
    have := countBase_pos_of_mem hmem
    omega
  have hbase_notin : ∀ q, q ∈ done → basenameOf q ≠ basenameOf p := by
    intro q hq hcontra
    have h2 := countBase_pos_of_mem hq
    rw [hcontra] at h2
    omega
  have hfp : st.files p = none := by
    cases hfp : st.files p with
    | none => rfl
    | some a =>
        exact absurd ((inv.files_dom p).mp (by rw [hfp] ; rfl)) hpnotin
  rw [registerExpected_none_eq hb]
  rw [hfp]
  simp only [Option.isSome_none, Bool.false_eq_true, if_false]
  refine
    { files_dom := ?_, files_exp := ?_, files_rec := ?_, files_inj := ?_,
      byBase_dom := ?_, byBase_exp := ?_, byBase_rec := ?_, byBase_files := ?_,
      heap_exp_only := ?_, keys_dom := ?_, keys_nodup := ?_ }
  · intro q
    by_cases hq : q = p
    · subst hq
      simp [upd_same]
    · dsimp only
      rw [upd_other st.files _ hq, inv.files_dom q]
      simp [hq]
  · intro q a hqa
    dsimp only at hqa
    by_cases hq : q = p
    · subst hq
      rw [upd_same] at hqa
      exact ⟨done.length, by injection hqa with h ; rw [← h], by simp⟩
    · rw [upd_other st.files _ hq] at hqa
      obtain ⟨i, rfl, hi⟩ := inv.files_exp q a hqa
      exact ⟨i, rfl, by simp ; omega⟩
  · intro q a hqa
    dsimp only at hqa ⊢
    by_cases hq : q = p
    · subst hq
      rw [upd_same] at hqa
      injection hqa with h
      subst h
      refine ⟨expInfo q, upd_same _ _ _, rfl, rfl, rfl, rfl, rfl, rfl, ?_⟩
      rw [hcnt, hc0, if_pos rfl]
      simp [expInfo]
    · rw [upd_other st.files _ hq] at hqa
      obtain ⟨r, hr, hpath, hbase2, hexp, hcr, hfr, ham, huniq⟩ := inv.files_rec q a hqa
      have hane : a ≠ Addr.exp done.length := files_ne_fresh inv hqa
      refine ⟨r, by rw [upd_other st.heap _ hane] ; exact hr, hpath, hbase2, hexp, hcr, hfr, ham, ?_⟩
      have hqmem : q ∈ done := (inv.files_dom q).mp (by rw [hqa] ; rfl)
      have hbq : basenameOf q ≠ basenameOf p := hbase_notin q hqmem
      rw [hcnt, if_neg (fun h => hbq h.symm)]
      simpa using huniq
  · intro q q2 a hqa hq2a
    dsimp only at hqa hq2a
    by_cases hq : q = p <;> by_cases hq2 : q2 = p
    · rw [hq, hq2]
    · subst hq
      rw [upd_same] at hqa
      rw [upd_other st.files _ hq2] at hq2a
      have ha : a = Addr.exp done.length := by injection hqa with h ; exact h.symm
      exact absurd ha (files_ne_fresh inv hq2a)
    · subst hq2
      rw [upd_same] at hq2a
      rw [upd_other st.files _ hq] at hqa
      have ha : a = Addr.exp done.length := by injection hq2a with h ; exact h.symm
      exact absurd ha (files_ne_fresh inv hqa)
    · rw [upd_other st.files _ hq] at hqa
      rw [upd_other st.files _ hq2] at hq2a
      exact inv.files_inj q q2 a hqa hq2a
  · intro b
    dsimp only
    by_cases hbb : b = basenameOf p
    · subst hbb
      rw [upd_same, hcnt, hc0, if_pos rfl]
      simp
    · rw [upd_other st.byBase _ (fun h => hbb h)]
      rw [inv.byBase_dom b, hcnt, if_neg (fun h => hbb h.symm)]
      simp
  · intro b a hba
    dsimp only at hba
    by_cases hbb : b = basenameOf p
    · subst hbb
      rw [upd_same] at hba
      exact ⟨done.length, by injection hba with h ; rw [← h], by simp⟩
    · rw [upd_other st.byBase _ (fun h => hbb h)] at hba
      obtain ⟨i, rfl, hi⟩ := inv.byBase_exp b a hba
      exact ⟨i, rfl, by simp ; omega⟩
  · intro b a hba
    dsimp only at hba ⊢
    by_cases hbb : b = basenameOf p
    · subst hbb
      rw [upd_same] at hba
      injection hba with h
      subst h
      refine ⟨expInfo p, upd_same _ _ _, rfl, rfl, rfl, rfl, rfl, ?_⟩
      rw [hcnt, hc0, if_pos rfl]
      simp [expInfo]
    · rw [upd_other st.byBase _ (fun h => hbb h)] at hba
      obtain ⟨r, hr, hbase2, hexp, hcr, hfr, ham, huniq⟩ := inv.byBase_rec b a hba
      have hane : a ≠ Addr.exp done.length := byBase_ne_fresh inv hba
      refine ⟨r, by rw [upd_other st.heap _ hane] ; exact hr, hbase2, hexp, hcr, hfr, ham, ?_⟩
      rw [hcnt, if_neg (fun h => hbb h.symm)]
      simpa using huniq
  · intro b a r hba hr hle
    dsimp only at hba hr ⊢
    by_cases hbb : b = basenameOf p
    · subst hbb
      rw [upd_same] at hba
      injection hba with h
      subst h
      rw [upd_same] at hr
      injection hr with h2
      subst h2
      show upd st.files p (Addr.exp done.length) (expInfo p).path = _
      rw [show (expInfo p).path = p from rfl, upd_same]
    · rw [upd_other st.byBase _ (fun h => hbb h)] at hba
      have hane : a ≠ Addr.exp done.length := byBase_ne_fresh inv hba
      rw [upd_other st.heap _ hane] at hr
      rw [hcnt, if_neg (fun h => hbb h.symm)] at hle
      have hfiles := inv.byBase_files b a r hba hr (by omega)
      have hrpne : r.path ≠ p := by
        intro hcontra
        rw [hcontra, hfp] at hfiles
        cases hfiles
      rw [upd_other st.files _ hrpne]
      exact hfiles
  · intro q
    dsimp only
    constructor
    · rw [upd_other st.heap _ (by intro h ; cases h)]
      exact (inv.heap_exp_only q).1
    · rw [upd_other st.heap _ (by intro h ; cases h)]
      exact (inv.heap_exp_only q).2
  · intro q
    dsimp only
    rw [List.mem_append, List.mem_append, inv.keys_dom q]
  · dsimp only
    rw [List.nodup_append]
    refine ⟨inv.keys_nodup, List.nodup_singleton p, ?_⟩
    intro x hx
    have := (inv.keys_dom x).mp hx
    simp
    intro hcontra
    subst hcontra
    exact hpnotin this

theorem registerExpected_inv_some {done : List String} {st : Reg} (inv : RegInv done st)
    (p : String) {c : Addr} (hb : st.byBase (basenameOf p) = some c) :
    RegInv (done ++ [p]) (registerExpected st done.length p) := by
  have hcnt : ∀ b, countBase (done ++ [p]) b =
      countBase done b + (if basenameOf p = b then 1 else 0) := by
    intro b
    rw [countBase_append, countBase_singleton]
  obtain ⟨j, hcjeq, hjlt⟩ := inv.byBase_exp _ c hb
  obtain ⟨rc, hrc, hrcbase, hrcexp, hrccr, hrcfr, hrcam, hrcuniq⟩ := inv.byBase_rec _ c hb
  have hcpos : 0 < countBase done (basenameOf p) := (inv.byBase_dom _).mp (by rw [hb] ; rfl)
  have hcne : c ≠ Addr.exp done.length := byBase_ne_fresh inv hb
  have hbig : ∀ q a, st.files q = some a → basenameOf q = basenameOf p → a ≠ c →
      2 ≤ countBase done (basenameOf p) := by
    intro q a hqa hbq hac
    by_cases hle : countBase done (basenameOf p) ≤ 1
    · exfalso
      have hfiles := inv.byBase_files _ c rc hb hrc hle
      have hqne : q ≠ rc.path := by
        intro hcontra
        rw [← hcontra] at hfiles
        rw [hqa] at hfiles
        injection hfiles with h
        exact hac h
      have hqmem : q ∈ done := (inv.files_dom q).mp (by rw [hqa] ; rfl)
      have hrcmem : rc.path ∈ done := (inv.files_dom rc.path).mp (by rw [hfiles] ; rfl)
      obtain ⟨r2, hr2, hr2path, hr2base, _⟩ := inv.files_rec rc.path c hfiles
      have hr2rc : r2 = rc := by rw [hrc] at hr2 ; injection hr2 with h ; exact h.symm
      have hbrc : basenameOf rc.path = basenameOf p := by
        rw [← hr2base, hr2rc, hrcbase]
      have := two_le_countBase hqmem hrcmem hqne hbq hbrc
      omega
    · omega
  rw [registerExpected_some_eq hb, hmod_upd_same, hmod_upd_comm _ _ _ (Ne.symm hcne)]
  refine
    { files_dom := ?_, files_exp := ?_, files_rec := ?_, files_inj := ?_,
      byBase_dom := ?_, byBase_exp := ?_, byBase_rec := ?_, byBase_files := ?_,
      heap_exp_only := ?_, keys_dom := ?_, keys_nodup := ?_ }
  · intro q
    by_cases hq : q = p
    · subst hq
      simp [upd_same]
    · dsimp only
      rw [upd_other st.files _ hq, inv.files_dom q]
      simp [hq]
  · intro q a hqa
    dsimp only at hqa
    by_cases hq : q = p
    · subst hq
      rw [upd_same] at hqa
      exact ⟨done.length, by injection hqa with h ; rw [← h], by simp⟩
    · rw [upd_other st.files _ hq] at hqa
      obtain ⟨i, rfl, hi⟩ := inv.files_exp q a hqa
      exact ⟨i, rfl, by simp ; omega⟩
  · intro q a hqa
    dsimp only at hqa ⊢
    by_cases hq : q = p
    · subst hq
      rw [upd_same] at hqa
      injection hqa with h
      subst h
      refine ⟨_, upd_same _ _ _, rfl, rfl, rfl, rfl, rfl, rfl, ?_⟩
      rw [hcnt, if_pos rfl]
      simp only [expInfo]
      constructor
      · intro h ; exact absurd h (by simp)
      · intro h ; exact absurd h (by omega)
    · rw [upd_other st.files _ hq] at hqa
      have hane : a ≠ Addr.exp done.length := files_ne_fresh inv hqa
      obtain ⟨r, hr, hpath, hbase2, hexp, hcr, hfr, ham, huniq⟩ := inv.files_rec q a hqa
      by_cases hac : a = c
      · subst hac
        have hrrc : r = rc := by rw [hrc] at hr ; injection hr with h ; exact h.symm
        have hbq : basenameOf q = basenameOf p := by rw [← hbase2, hrrc, hrcbase]
        refine ⟨{ r with unique := false }, ?_, hpath, hbase2, hexp, hcr, hfr, ham, ?_⟩
        · rw [upd_other _ _ hane, hmod_same, hr]
          rfl
        · rw [hcnt, if_pos hbq.symm]
          simp only [Bool.false_eq_true, false_iff]
          rw [hbq]
          omega
      · refine ⟨r, ?_, hpath, hbase2, hexp, hcr, hfr, ham, ?_⟩
        · rw [upd_other _ _ hane, hmod_other _ _ hac]
          exact hr
        · by_cases hbq : basenameOf q = basenameOf p
          · have hge2 := hbig q a hqa hbq hac
            rw [hcnt, if_pos hbq.symm]
            constructor
            · intro h
              have := huniq.mp h
              rw [hbq] at this
              omega
            · intro h
              rw [hbq] at h
              exact absurd h (by omega)
          · rw [hcnt, if_neg (fun h => hbq h.symm)]
            simpa using huniq
  · intro q q2 a hqa hq2a
    dsimp only at hqa hq2a
    by_cases hq : q = p <;> by_cases hq2 : q2 = p
    · rw [hq, hq2]
    · subst hq
      rw [upd_same] at hqa
      rw [upd_other st.files _ hq2] at hq2a
      have ha : a = Addr.exp done.length := by injection hqa with h ; exact h.symm
      exact absurd ha (files_ne_fresh inv hq2a)
    · subst hq2
      rw [upd_same] at hq2a
      rw [upd_other st.files _ hq] at hqa
      have ha : a = Addr.exp done.length := by injection hq2a with h ; exact h.symm
      exact absurd ha (files_ne_fresh inv hqa)
    · rw [upd_other st.files _ hq] at hqa
      rw [upd_other st.files _ hq2] at hq2a
      exact inv.files_inj q q2 a hqa hq2a
  · intro b
    dsimp only
    by_cases hbb : b = basenameOf p
    · subst hbb
      rw [hb, hcnt, if_pos rfl]
      simp
    · rw [inv.byBase_dom b, hcnt, if_neg (fun h => hbb h.symm)]
      simp
  · intro b a hba
    dsimp only at hba
    obtain ⟨i, rfl, hi⟩ := inv.byBase_exp b a hba
    exact ⟨i, rfl, by simp ; omega⟩
  · intro b a hba
    dsimp only at hba ⊢
    by_cases hbb : b = basenameOf p
    · subst hbb
      rw [hb] at hba
      injection hba with h
      subst h
      refine ⟨{ rc with unique := false }, ?_, by simp [hrcbase], hrcexp, hrccr, hrcfr, hrcam, ?_⟩
      · rw [upd_other _ _ hcne, hmod_same, hrc]
        rfl
      · rw [hcnt, if_pos rfl]
        simp only [Bool.false_eq_true, false_iff]
        omega
    · obtain ⟨r, hr, hbase2, hexp, hcr, hfr, ham, huniq⟩ := inv.byBase_rec b a hba
      have hane : a ≠ Addr.exp done.length := byBase_ne_fresh inv hba
      have hac : a ≠ c := by
        intro hcontra
        subst hcontra
        rw [hrc] at hr
        injection hr with h
        rw [h, hbase2] at hrcbase
        exact hbb hrcbase
      refine ⟨r, ?_, hbase2, hexp, hcr, hfr, ham, ?_⟩
      · rw [upd_other _ _ hane, hmod_other _ _ hac]
        exact hr
      · rw [hcnt, if_neg (fun h => hbb h.symm)]
        simpa using huniq
  · intro b a r hba hr hle
    dsimp only at hba hr hle ⊢
    by_cases hbb : b = basenameOf p
    · subst hbb
      rw [hcnt, if_pos rfl] at hle
      omega
    · obtain ⟨r0, hr0, hbase0, _⟩ := inv.byBase_rec b a hba
      have hane : a ≠ Addr.exp done.length := byBase_ne_fresh inv hba
      have hac : a ≠ c := by
        intro hcontra
        subst hcontra
        rw [hrc] at hr0
        injection hr0 with h
        rw [h, hbase0] at hrcbase
        exact hbb hrcbase
      rw [upd_other _ _ hane, hmod_other _ _ hac] at hr
      rw [hcnt, if_neg (fun h => hbb h.symm)] at hle
      have hfiles := inv.byBase_files b a r hba hr (by omega)
      have hrr0 : r = r0 := by rw [hr0] at hr ; injection hr with h ; exact h.symm
      have hrpne : r.path ≠ p := by
        intro hcontra
        obtain ⟨r2, hr2, _, hr2base, _⟩ := inv.files_rec r.path a hfiles
        have hr2r : r2 = r := by rw [hr] at hr2 ; injection hr2 with h ; exact h.symm
        rw [hr2r] at hr2base
        rw [hrr0] at hr2base
        rw [hbase0] at hr2base
        rw [hrr0] at hcontra
        rw [hcontra] at hr2base
        exact hbb hr2base
      rw [upd_other st.files _ hrpne]
      exact hfiles
  · intro q
    constructor
    · dsimp only
      rw [upd_other _ _ (by intro h ; cases h)]
      rw [hmod_other _ _ (by rw [hcjeq] ; intro h ; cases h)]
      exact (inv.heap_exp_only q).1
    · dsimp only
      rw [upd_other _ _ (by intro h ; cases h)]
      rw [hmod_other _ _ (by rw [hcjeq] ; intro h ; cases h)]
      exact (inv.heap_exp_only q).2
  · intro q
    dsimp only
    by_cases hfps : (st.files p).isSome
    · rw [if_pos hfps, inv.keys_dom q]
      have hpmem : p ∈ done := (inv.files_dom p).mp hfps
      simp only [List.mem_append, List.mem_singleton]
      constructor
      · intro h ; exact Or.inl h
      · rintro (h | rfl)
        · exact h
        · exact hpmem
    · rw [if_neg hfps]
      simp only [List.mem_append, List.mem_singleton, inv.keys_dom q]
  · dsimp only
    by_cases hfps : (st.files p).isSome
    · rw [if_pos hfps]
      exact inv.keys_nodup
    · rw [if_neg hfps]
      rw [List.nodup_append]
      refine ⟨inv.keys_nodup, List.nodup_singleton p, ?_⟩
      intro x hx
      have hxd := (inv.keys_dom x).mp hx
      simp
      intro hcontra
      rw [hcontra] at hxd
      exact hfps ((inv.files_dom p).mpr hxd)

theorem registerExpected_inv {done : List String} {st : Reg} (inv : RegInv done st) (p : String) :
    RegInv (done ++ [p]) (registerExpected st done.length p) := by
  cases hb : st.byBase (basenameOf p) with
  | none => exact registerExpected_inv_none inv p hb
  | some c => exact registerExpected_inv_some inv p hb

theorem registerList_inv : ∀ (l done : List String) (st : Reg), RegInv done st →
    RegInv (done ++ l) (registerList st done.length l)
  | [], done, st, inv => by simpa using inv
  | p :: rest, done, st, inv => by
      have step := registerExpected_inv inv p
      have ih := registerList_inv rest (done ++ [p]) (registerExpected st done.length p) step
      rw [List.length_append] at ih
      simp only [registerList]
      rw [List.append_cons]
      simpa using ih

theorem buildReg_inv (expected : List String) : RegInv expected (buildReg expected) := by
  have := registerList_inv expected [] emptyReg regInv_empty
  simpa [buildReg] using this

/-- The walk-phase invariant, relative to the registry `reg` the walk
started from: `byBase` is never modified, `files` only grows (and only
with discovered-file addresses), every registry record keeps its `base`,
`path`, `unique` and `expected` fields, records at discovered addresses
describe the discovered file, and `fileKeys` mirrors the domain of
`files`. -/
structure WInv (reg st : Reg) : Prop where
  byBase_eq : st.byBase = reg.byBase
  files_mono : ∀ p a, reg.files p = some a → st.files p = some a
  files_new : ∀ p a, st.files p = some a → reg.files p = some a ∨ a = Addr.disc p
  heap_pres : ∀ a r, reg.heap a = some r → ∃ r2, st.heap a = some r2 ∧
      r2.base = r.base ∧ r2.path = r.path ∧ r2.unique = r.unique ∧ r2.expected = r.expected
  heap_disc : ∀ q r, st.heap (Addr.disc q) = some r →
      r.path = tmpPrefix ++ q ∧ r.base = basenameOf q ∧ r.unique = false
  heap_src : ∀ q r, st.heap (Addr.src q) = some r →
      r.path = tmpPrefix ++ q ∧ r.base = basenameOf q
  keys_files : ∀ p, p ∈ st.fileKeys ↔ (st.files p).isSome
  keys_nodup : st.fileKeys.Nodup

theorem winv_init {expected : List String} {reg : Reg} (inv : RegInv expected reg) :
    WInv reg reg := by
  refine
    { byBase_eq := rfl, files_mono := fun p a h => h,
      files_new := fun p a h => Or.inl h,
      heap_pres := fun a r h => ⟨r, h, rfl, rfl, rfl, rfl⟩,
      heap_disc := ?_, heap_src := ?_, keys_files := ?_, keys_nodup := inv.keys_nodup }
  · intro q r h
    rw [(inv.heap_exp_only q).1] at h
    cases h
  · intro q r h
    rw [(inv.heap_exp_only q).2] at h
    cases h
  · intro p
    rw [inv.keys_dom p, ← inv.files_dom p]

theorem walkFileStep_exact_eq {st : Reg} {rel : String} {a : Addr}
    (hf : st.files rel = some a) :
    walkFileStep st rel =
      { st with
        heap := hmod (upd st.heap (Addr.src rel) (discInfo rel)) a
          (fun r => { r with created := true, fromIdx := some (Addr.src rel) }) } := by
  unfold walkFileStep
  dsimp only
  rw [hf]

/-- The intermediate state of the discovery branch, before the basename
fallback switch. -/
def discState (st : Reg) (rel : String) : Reg :=
  { st with
    heap := upd st.heap (Addr.disc rel) (discInfo rel),
    files := upd st.files rel (Addr.disc rel),
    fileKeys := st.fileKeys ++ [rel] }

theorem walkFileStep_disc_eq {st : Reg} {rel : String}
    (hf : st.files rel = none) :
    walkFileStep st rel =
      (match (discState st rel).byBase (basenameOf rel) with
       | none => discState st rel
       | some c =>
          match (discState st rel).heap c with
          | none => discState st rel
          | some copyTo =>
              if copyTo.unique = false then discState st rel
              else
                match copyTo.fromIdx with
                | some _ =>
                    { discState st rel with
                      heap := hmod (hmod (discState st rel).heap c (fun r => { r with ambiguious := true })) (Addr.disc rel) (fun r => { r with ambiguious := true }) }
                | none =>
                    { discState st rel with
                      heap := hmod (hmod (discState st rel).heap c (fun r => { r with fromIdx := some (Addr.disc rel), created := true })) (Addr.disc rel) (fun r => { r with expected := true }) }) := by
  unfold walkFileStep
  dsimp only
  rw [hf]
  rfl

theorem discState_winv {expected : List String} {reg st : Reg} (inv : RegInv expected reg)
    (w : WInv reg st) {rel : String} (hf : st.files rel = none) :
    WInv reg (discState st rel) := by
  refine
    { byBase_eq := w.byBase_eq, files_mono := ?_, files_new := ?_, heap_pres := ?_,
      heap_disc := ?_, heap_src := ?_, keys_files := ?_, keys_nodup := ?_ }
  · intro p a h
    have h2 := w.files_mono p a h
    have hne : p ≠ rel := by
      intro hcontra
      rw [hcontra, hf] at h2
      cases h2
    show upd st.files rel (Addr.disc rel) p = some a
    rw [upd_other st.files _ hne]
    exact h2
  · intro p a h
    by_cases hp : p = rel
    · right
      rw [show (discState st rel).files p = upd st.files rel (Addr.disc rel) p from rfl] at h
      rw [hp] at h ⊢
      rw [upd_same] at h
      injection h with h2
      exact h2.symm
    · rw [show (discState st rel).files p = upd st.files rel (Addr.disc rel) p from rfl,
        upd_other st.files _ hp] at h
      exact w.files_new p a h
  · intro a r h
    obtain ⟨r2, hr2, hb2, hp2, hu2, he2⟩ := w.heap_pres a r h
    refine ⟨r2, ?_, hb2, hp2, hu2, he2⟩
    show upd st.heap (Addr.disc rel) (discInfo rel) a = some r2
    have hane : a ≠ Addr.disc rel := by
      intro hcontra
      rw [hcontra] at h
      rw [(inv.heap_exp_only rel).1] at h
      cases h
    rw [upd_other st.heap _ hane]
    exact hr2
  · intro q r h
    by_cases hq : q = rel
    · rw [hq] at h ⊢
      rw [show (discState st rel).heap (Addr.disc rel) =
          upd st.heap (Addr.disc rel) (discInfo rel) (Addr.disc rel) from rfl, upd_same] at h
      injection h with h2
      rw [← h2]
      exact ⟨rfl, rfl, rfl⟩
    · rw [show (discState st rel).heap (Addr.disc q) =
          upd st.heap (Addr.disc rel) (discInfo rel) (Addr.disc q) from rfl,
        upd_other st.heap _ (by intro hc ; injection hc with hc2 ; exact hq hc2)] at h
      exact w.heap_disc q r h
  · intro q r h
    rw [show (discState st rel).heap (Addr.src q) =
        upd st.heap (Addr.disc rel) (discInfo rel) (Addr.src q) from rfl,
      upd_other st.heap _ (by intro hc ; cases hc)] at h
    exact w.heap_src q r h
  · intro p
    show p ∈ st.fileKeys ++ [rel] ↔ (upd st.files rel (Addr.disc rel) p).isSome
    by_cases hp : p = rel
    · subst hp
      rw [upd_same]
      simp
    · rw [upd_other st.files _ hp]
      rw [List.mem_append]
      simp only [List.mem_singleton, hp, or_false]
      exact w.keys_files p
  · show (st.fileKeys ++ [rel]).Nodup
    rw [List.nodup_append]
    refine ⟨w.keys_nodup, List.nodup_singleton rel, ?_⟩
    intro x hx
    simp only [List.mem_singleton]
    intro hcontra
    rw [hcontra] at hx
    have := (w.keys_files rel).mp hx
    rw [hf] at this
    cases this

theorem winv_hmod {expected : List String} {reg st : Reg} (inv : RegInv expected reg)
    (w : WInv reg st) (k : Addr) (f : GenFileInfo → GenFileInfo)
    (hfb : ∀ r, (f r).base = r.base) (hfp : ∀ r, (f r).path = r.path)
    (hfu : ∀ r, (f r).unique = r.unique)
    (hfe : (∀ r, (f r).expected = r.expected) ∨ reg.heap k = none) :
    WInv reg { st with heap := hmod st.heap k f } := by
  refine
    { byBase_eq := w.byBase_eq, files_mono := w.files_mono, files_new := w.files_new,
      heap_pres := ?_, heap_disc := ?_, heap_src := ?_,
      keys_files := w.keys_files, keys_nodup := w.keys_nodup }
  · intro a0 r h
    obtain ⟨r2, hr2, hb2, hp2, hu2, he2⟩ := w.heap_pres a0 r h
    by_cases ha0 : a0 = k
    · rcases hfe with hfe | hfe
      · refine ⟨f r2, ?_, ?_, ?_, ?_, ?_⟩
        · dsimp only
          rw [ha0, hmod_same, ← ha0, hr2]
          rfl
        · rw [hfb, hb2]
        · rw [hfp, hp2]
        · rw [hfu, hu2]
        · rw [hfe, he2]
      · rw [ha0, hfe] at h
        cases h
    · refine ⟨r2, ?_, hb2, hp2, hu2, he2⟩
      dsimp only
      rw [hmod_other _ _ ha0]
      exact hr2
  · intro q r h
    dsimp only at h
    by_cases hdq : Addr.disc q = k
    · rw [← hdq, hmod_same] at h
      cases hst : st.heap (Addr.disc q) with
      | none => rw [hst] at h ; cases h
      | some r0 =>
          rw [hst] at h
          injection h with h2
          obtain ⟨hp0, hb0, hu0⟩ := w.heap_disc q r0 hst
          rw [← h2, hfp, hfb, hfu]
          exact ⟨hp0, hb0, hu0⟩
    · rw [hmod_other _ _ hdq] at h
      exact w.heap_disc q r h
  · intro q r h
    dsimp only at h
    by_cases hsq : Addr.src q = k
    · rw [← hsq, hmod_same] at h
      cases hst : st.heap (Addr.src q) with
      | none => rw [hst] at h ; cases h
      | some r0 =>
          rw [hst] at h
          injection h with h2
          obtain ⟨hp0, hb0⟩ := w.heap_src q r0 hst
          rw [← h2, hfp, hfb]
          exact ⟨hp0, hb0⟩
    · rw [hmod_other _ _ hsq] at h
      exact w.heap_src q r h

theorem walkFileStep_winv {expected : List String} {reg st : Reg} (inv : RegInv expected reg)
    (w : WInv reg st) (rel : String) : WInv reg (walkFileStep st rel) := by
  cases hf : st.files rel with
  | some a =>
      rw [walkFileStep_exact_eq hf]
      have hasrc : ∀ q, a ≠ Addr.src q := by
        intro q hcontra
        rcases w.files_new rel a hf with hreg | hdisc
        · obtain ⟨i, hi, _⟩ := inv.files_exp rel a hreg
          rw [hcontra] at hi
          cases hi
        · rw [hdisc] at hcontra
          cases hcontra
      have hmid : WInv reg { st with heap := upd st.heap (Addr.src rel) (discInfo rel) } := by
        refine
          { byBase_eq := w.byBase_eq, files_mono := w.files_mono, files_new := w.files_new,
            heap_pres := ?_, heap_disc := ?_, heap_src := ?_,
            keys_files := w.keys_files, keys_nodup := w.keys_nodup }
        · intro a0 r h
          obtain ⟨r2, hr2, hb2, hp2, hu2, he2⟩ := w.heap_pres a0 r h
          refine ⟨r2, ?_, hb2, hp2, hu2, he2⟩
          dsimp only
          have : a0 ≠ Addr.src rel := by
            intro hcontra
            rw [hcontra, (inv.heap_exp_only rel).2] at h
            cases h
          rw [upd_other st.heap _ this]
          exact hr2
        · intro q r h
          dsimp only at h
          rw [upd_other st.heap _ (by intro hc ; cases hc)] at h
          exact w.heap_disc q r h
        · intro q r h
          dsimp only at h
          by_cases hq : q = rel
          · rw [hq] at h ⊢
            rw [upd_same] at h
            injection h with h2
            rw [← h2]
            exact ⟨rfl, rfl⟩
          · rw [upd_other st.heap _ (by intro hc ; injection hc with hc2 ; exact hq hc2)] at h
            exact w.heap_src q r h
      exact winv_hmod inv hmid a _ (fun r => rfl) (fun r => rfl) (fun r => rfl)
        (Or.inl (fun r => rfl))
  | none =>
      rw [walkFileStep_disc_eq hf]
      have w1 := discState_winv inv w hf
      cases hbb : (discState st rel).byBase (basenameOf rel) with
      | none => exact w1
      | some c =>
          dsimp only
          cases hheap : (discState st rel).heap c with
          | none => exact w1
          | some copyTo =>
              dsimp only
              by_cases hcu : copyTo.unique = false
              · rw [if_pos hcu]
                exact w1
              · rw [if_neg hcu]
                have hregdisc : reg.heap (Addr.disc rel) = none := (inv.heap_exp_only rel).1
                cases hfrom : copyTo.fromIdx with
                | some x =>
                    dsimp only
                    exact winv_hmod inv
                      (winv_hmod inv w1 c (fun r => { r with ambiguious := true })
                        (fun r => rfl) (fun r => rfl) (fun r => rfl) (Or.inl (fun r => rfl)))
                      (Addr.disc rel) (fun r => { r with ambiguious := true })
                      (fun r => rfl) (fun r => rfl) (fun r => rfl) (Or.inl (fun r => rfl))
                | none =>
                    dsimp only
                    exact winv_hmod inv
                      (winv_hmod inv w1 c
                        (fun r => { r with fromIdx := some (Addr.disc rel), created := true })
                        (fun r => rfl) (fun r => rfl) (fun r => rfl) (Or.inl (fun r => rfl)))
                      (Addr.disc rel) (fun r => { r with expected := true })
                      (fun r => rfl) (fun r => rfl) (fun r => rfl) (Or.inr hregdisc)

theorem walkStep_winv {expected : List String} {reg st st2 : Reg} (inv : RegInv expected reg)
    (w : WInv reg st) {e : WalkEntry} (h : walkStep st e = some st2) : WInv reg st2 := by
  cases e with
  | dir d o =>
      simp only [walkStep] at h
      by_cases ho : o = MkdirOutcome.failMk
      · rw [if_pos ho] at h
        cases h
      · rw [if_neg ho] at h
        injection h with h2
        rw [← h2]
        exact w
  | file rel content =>
      simp only [walkStep] at h
      by_cases hs : hasSuffix rel ".go" = true
      · rw [if_pos hs] at h
        injection h with h2
        rw [← h2]
        exact walkFileStep_winv inv w rel
      · rw [if_neg hs] at h
        injection h with h2
        rw [← h2]
        exact w

theorem walkList_winv {expected : List String} {reg : Reg} (inv : RegInv expected reg) :
    ∀ (entries : List WalkEntry) (st : Reg), WInv reg st →
      WInv reg (walkList st entries).1
  | [], st, w => w
  | e :: rest, st, w => by
      unfold walkList
      cases h : walkStep st e with
      | none => exact w
      | some st2 => exact walkList_winv inv rest st2 (walkStep_winv inv w h)

/-- C8: after registry construction over any expected-path list, a record
reachable from `files` carries `unique = true` exactly when its basename
occurs at most once in the expected list — so every basename shared by two
or more expected paths is marked non-unique on all of the records sharing
it, including the first one registered — and the walk over the scratch
tree never changes the `unique` marking of such a record, so the marking
is fixed before any scratch-tree matching occurs. -/
theorem c8_unique_marking (expected : List String) (entries : List WalkEntry)
    (p : String) (a : Addr) (r : GenFileInfo)
    (hf : (buildReg expected).files p = some a)
    (hr : (buildReg expected).heap a = some r) :
    (r.unique = true ↔ countBase expected (basenameOf p) ≤ 1) ∧
    ∃ r2, ((walkList (buildReg expected) entries).1).heap a = some r2 ∧
      r2.unique = r.unique := by
  have inv := buildReg_inv expected
  obtain ⟨r0, hr0, _hp2, _hb2, _he2, _hc2, _hf2, _ha2, huniq⟩ := inv.files_rec p a hf
  have hrr0 : r = r0 := by rw [hr0] at hr ; injection hr with h ; exact h.symm
  have w := walkList_winv inv entries (buildReg expected) (winv_init inv)
  obtain ⟨r2, hr2, _, _, hu2, _⟩ := w.heap_pres a r hr
  constructor
  · rw [hrr0]
    exact huniq
  · exact ⟨r2, hr2, hu2⟩

/-- Witness for `c8_unique_marking`: a three-way shared basename, checked
on the first registered record. -/
theorem c8_unique_marking_witness :
    (buildReg ["a/f.go", "b/f.go", "c/f.go"]).files "a/f.go" = some (Addr.exp 0) ∧
    (buildReg ["a/f.go", "b/f.go", "c/f.go"]).heap (Addr.exp 0) =
      some ⟨"f.go", "a/f.go", true, false, none, false, false⟩ ∧
    (((⟨"f.go", "a/f.go", true, false, none, false, false⟩ : GenFileInfo).unique = true ↔
        countBase ["a/f.go", "b/f.go", "c/f.go"] (basenameOf "a/f.go") ≤ 1) ∧
      ∃ r2, ((walkList (buildReg ["a/f.go", "b/f.go", "c/f.go"])
          [WalkEntry.dir "x" MkdirOutcome.okMk]).1).heap (Addr.exp 0) = some r2 ∧
        r2.unique = (⟨"f.go", "a/f.go", true, false, none, false, false⟩ : GenFileInfo).unique) :=
  ⟨by decide, by decide,
    c8_unique_marking ["a/f.go", "b/f.go", "c/f.go"] [WalkEntry.dir "x" MkdirOutcome.okMk]
      "a/f.go" (Addr.exp 0) ⟨"f.go", "a/f.go", true, false, none, false, false⟩
      (by decide) (by decide)⟩

theorem mem_of_countPath_pos {l : List String} {p : String} (h : 0 < countPath l p) :
    p ∈ l := by
  induction l with
  | nil => simp [countPath] at h
  | cons q rest ih =>
      by_cases hq : q = p
      · rw [hq]
        exact List.mem_cons_self p rest
      · simp only [countPath, List.filter_cons, hq] at h
        simp only [decide_eq_true_eq, hq, if_false] at h
        exact List.mem_cons_of_mem q (ih h)

theorem files_addr_ne {expected : List String} {reg st : Reg} (inv : RegInv expected reg)
    (w : WInv reg st) {p q : String} {a b : Addr}
    (hp : st.files p = some a) (hq : st.files q = some b) (hne : p ≠ q) : a ≠ b := by
  intro hcontra
  subst hcontra
  rcases w.files_new p a hp with hrp | hdp
  · rcases w.files_new q a hq with hrq | hdq
    · exact hne (inv.files_inj p q a hrp hrq)
    · obtain ⟨i, hi, _⟩ := inv.files_exp p a hrp
      rw [hdq] at hi
      cases hi
  · rcases w.files_new q a hq with hrq | hdq
    · obtain ⟨i, hi, _⟩ := inv.files_exp q a hrq
      rw [hdp] at hi
      cases hi
    · rw [hdp] at hdq
      injection hdq with h
      exact hne h

theorem reg_addr_exp {expected : List String} {reg : Reg} (inv : RegInv expected reg)
    {p : String} {a : Addr} (hpa : reg.files p = some a) : ∃ i, a = Addr.exp i := by
  obtain ⟨i, hi, _⟩ := inv.files_exp p a hpa
  exact ⟨i, hi⟩

/-- One file step of the walk leaves the resolution pointer of an expected
record untouched, provided the stepped file is not at the record's own
path: a set pointer is never reassigned, and an unset pointer of a
non-unique record is never set. -/
theorem walkFileStep_from {expected : List String} {reg st : Reg} (inv : RegInv expected reg)
    (w : WInv reg st) {p : String} {a : Addr} (hpa : reg.files p = some a)
    {rel : String} (hne : rel ≠ p) {r : GenFileInfo} (hr : st.heap a = some r) :
    ∃ r2, (walkFileStep st rel).heap a = some r2 ∧ r2.unique = r.unique ∧
      (r.fromIdx = none → r.unique = false → r2.fromIdx = none) ∧
      (∀ j, r.fromIdx = some j → r2.fromIdx = some j) ∧
      (r.unique = false → r2 = r) := by
  obtain ⟨i, hexp⟩ := reg_addr_exp inv hpa
  have hsta : st.files p = some a := w.files_mono p a hpa
  have hnd : ∀ q, a ≠ Addr.disc q := by
    intro q hcontra
    rw [hexp] at hcontra
    cases hcontra
  have hns : ∀ q, a ≠ Addr.src q := by
    intro q hcontra
    rw [hexp] at hcontra
    cases hcontra
  cases hf : st.files rel with
  | some a2 =>
      rw [walkFileStep_exact_eq hf]
      have hane : a ≠ a2 := files_addr_ne inv w hsta hf (fun hc => hne hc.symm)
      refine ⟨r, ?_, rfl, fun h _ => h, fun j h => h, fun _ => rfl⟩
      dsimp only
      rw [hmod_other _ _ hane, upd_other st.heap _ (hns rel)]
      exact hr
  | none =>
      rw [walkFileStep_disc_eq hf]
      have hst1 : (discState st rel).heap a = some r := by
        show upd st.heap (Addr.disc rel) (discInfo rel) a = some r
        rw [upd_other st.heap _ (hnd rel)]
        exact hr
      cases hbb : (discState st rel).byBase (basenameOf rel) with
      | none => exact ⟨r, hst1, rfl, fun h _ => h, fun j h => h, fun _ => rfl⟩
      | some c =>
          dsimp only
          cases hheap : (discState st rel).heap c with
          | none => exact ⟨r, hst1, rfl, fun h _ => h, fun j h => h, fun _ => rfl⟩
          | some copyTo =>
              dsimp only
              by_cases hcu : copyTo.unique = false
              · rw [if_pos hcu]
                exact ⟨r, hst1, rfl, fun h _ => h, fun j h => h, fun _ => rfl⟩
              · rw [if_neg hcu]
                cases hfrom : copyTo.fromIdx with
                | some x =>
                    dsimp only
                    by_cases hca : c = a
                    · have hcr : copyTo = r := by
                        rw [hca, hst1] at hheap
                        injection hheap with h
                        exact h.symm
                      refine ⟨{ r with ambiguious := true }, ?_, rfl, fun h _ => h,
                        fun j h => h, ?_⟩
                      · dsimp only
                        rw [hmod_other _ _ (hnd rel), hca, hmod_same, hst1]
                        rfl
                      · intro huf
                        rw [← hcr] at huf
                        exact absurd huf (by simpa using hcu)
                    · refine ⟨r, ?_, rfl, fun h _ => h, fun j h => h, fun _ => rfl⟩
                      dsimp only
                      rw [hmod_other _ _ (hnd rel), hmod_other _ _ (fun hc => hca hc.symm)]
                      exact hst1
                | none =>
                    dsimp only
                    by_cases hca : c = a
                    · have hcr : copyTo = r := by
                        rw [hca, hst1] at hheap
                        injection hheap with h
                        exact h.symm
                      refine ⟨{ r with fromIdx := some (Addr.disc rel), created := true }, ?_,
                        rfl, ?_, ?_, ?_⟩
                      · dsimp only
                        rw [hmod_other _ _ (hnd rel), hca, hmod_same, hst1]
                        rfl
                      · intro _ huf
                        rw [← hcr] at huf
                        exact absurd huf (by simpa using hcu)
                      · intro j hj
                        rw [← hcr, hfrom] at hj
                        cases hj
                      · intro huf
                        rw [← hcr] at huf
                        exact absurd huf (by simpa using hcu)
                    · refine ⟨r, ?_, rfl, fun h _ => h, fun j h => h, fun _ => rfl⟩
                      dsimp only
                      rw [hmod_other _ _ (hnd rel), hmod_other _ _ (fun hc => hca hc.symm)]
                      exact hst1

theorem walkStep_from {expected : List String} {reg st st2 : Reg} (inv : RegInv expected reg)
    (w : WInv reg st) {p : String} {a : Addr} (hpa : reg.files p = some a)
    {e : WalkEntry} (hne : ∀ rel content, e = WalkEntry.file rel content → rel ≠ p)
    (h : walkStep st e = some st2) {r : GenFileInfo} (hr : st.heap a = some r) :
    ∃ r2, st2.heap a = some r2 ∧ r2.unique = r.unique ∧
      (r.fromIdx = none → r.unique = false → r2.fromIdx = none) ∧
      (∀ j, r.fromIdx = some j → r2.fromIdx = some j) ∧
      (r.unique = false → r2 = r) := by
  cases e with
  | dir d o =>
      simp only [walkStep] at h
      by_cases ho : o = MkdirOutcome.failMk
      · rw [if_pos ho] at h
        cases h
      · rw [if_neg ho] at h
        injection h with h2
        rw [← h2]
        exact ⟨r, hr, rfl, fun h _ => h, fun j h => h, fun _ => rfl⟩
  | file rel content =>
      simp only [walkStep] at h
      by_cases hs : hasSuffix rel ".go" = true
      · rw [if_pos hs] at h
        injection h with h2
        rw [← h2]
        exact walkFileStep_from inv w hpa (hne rel content rfl) hr
      · rw [if_neg hs] at h
        injection h with h2
        rw [← h2]
        exact ⟨r, hr, rfl, fun h _ => h, fun j h => h, fun _ => rfl⟩

theorem walkList_from {expected : List String} {reg : Reg} (inv : RegInv expected reg) :
    ∀ (entries : List WalkEntry) (st : Reg), WInv reg st →
      ∀ {p : String} {a : Addr} {r : GenFileInfo}, reg.files p = some a →
        st.heap a = some r → p ∉ fileRels entries →
        ∃ r2, ((walkList st entries).1).heap a = some r2 ∧ r2.unique = r.unique ∧
          (r.fromIdx = none → r.unique = false → r2.fromIdx = none) ∧
          (∀ j, r.fromIdx = some j → r2.fromIdx = some j) ∧
          (r.unique = false → r2 = r)
  | [], st, w, p, a, r, hpa, hr, hnp => ⟨r, hr, rfl, fun h _ => h, fun j h => h, fun _ => rfl⟩
  | e :: rest, st, w, p, a, r, hpa, hr, hnp => by
      have hnee : ∀ rel content, e = WalkEntry.file rel content → rel ≠ p := by
        intro rel content hc hcontra
        rw [hc, hcontra] at hnp
        exact hnp (by simp [fileRels])
      have hnprest : p ∉ fileRels rest := by
        intro hcontra
        apply hnp
        cases e with
        | dir d o => simpa [fileRels] using hcontra
        | file rel c =>
            simp only [fileRels, List.mem_cons]
            exact Or.inr hcontra
      unfold walkList
      cases h : walkStep st e with
      | none => exact ⟨r, hr, rfl, fun h _ => h, fun j h => h, fun _ => rfl⟩
      | some st2 =>
          obtain ⟨r2, hr2, hu2, hn2, hs2, hid2⟩ := walkStep_from inv w hpa hnee h hr
          obtain ⟨r3, hr3, hu3, hn3, hs3, hid3⟩ :=
            walkList_from inv rest st2 (walkStep_winv inv w h) hpa hr2 hnprest
          refine ⟨r3, hr3, by rw [hu3, hu2], ?_, ?_, ?_⟩
          · intro hfn hfu
            exact hn3 (hn2 hfn hfu) (by rw [hu2, hfu])
          · intro j hj
            exact hs3 j (hs2 j hj)
          · intro hfu
            rw [hid3 (by rw [hu2, hfu]), hid2 hfu]

theorem walkList_cons (st : Reg) (e : WalkEntry) (rest : List WalkEntry) :
    walkList st (e :: rest) =
      (match walkStep st e with
       | none => (st, true)
       | some st1 => walkList st1 rest) := rfl

theorem walkList_append (st : Reg) (l₁ l₂ : List WalkEntry) :
    walkList st (l₁ ++ l₂) =
      (if (walkList st l₁).2 then walkList st l₁ else walkList (walkList st l₁).1 l₂) := by
  induction l₁ generalizing st with
  | nil => simp [walkList]
  | cons e rest ih =>
      rw [List.cons_append, walkList_cons, walkList_cons]
      cases h : walkStep st e with
      | none => simp
      | some st2 =>
          dsimp only
          exact ih st2

theorem recFrom_eq {st : Reg} {p : String} {a : Addr} {r : GenFileInfo}
    (hf : st.files p = some a) (hr : st.heap a = some r) : recFrom st p = r.fromIdx := by
  simp [recFrom, recAt, hf, hr]

theorem recFrom_eq_none {st : Reg} {p : String} {a : Addr}
    (hf : st.files p = some a) (hr : st.heap a = none) : recFrom st p = none := by
  simp [recFrom, recAt, hf, hr]

/-- C4 (amended): once an expected record's resolution pointer is set, no
later walk entry other than the exact-path match for the record's own path
ever changes it: a basename-fallback candidate marks the record ambiguous
instead of rebinding it.  Hence if the record's own path does not occur
among the remaining walked files, the pointer is stable. -/
theorem c4_from_stable (expected : List String) (pre post : List WalkEntry)
    (p : String) (j : Addr)
    (hmem : p ∈ expected)
    (hnp : p ∉ fileRels post)
    (hset : recFrom (walkList (buildReg expected) pre).1 p = some j) :
    recFrom (walkList (buildReg expected) (pre ++ post)).1 p = some j := by
  have inv := buildReg_inv expected
  have hsome : ((buildReg expected).files p).isSome := (inv.files_dom p).mpr hmem
  cases ha : (buildReg expected).files p with
  | none => rw [ha] at hsome ; cases hsome
  | some a =>
      have wpre := walkList_winv inv pre (buildReg expected) (winv_init inv)
      have hfpre : (walkList (buildReg expected) pre).1.files p = some a :=
        wpre.files_mono p a ha
      cases hrpre : (walkList (buildReg expected) pre).1.heap a with
      | none =>
          rw [recFrom_eq_none hfpre hrpre] at hset
          cases hset
      | some r =>
          rw [recFrom_eq hfpre hrpre] at hset
          rw [walkList_append]
          by_cases hab : (walkList (buildReg expected) pre).2
          · rw [if_pos hab]
            rw [recFrom_eq hfpre hrpre]
            exact hset
          · rw [if_neg hab]
            obtain ⟨r2, hr2, _, _, hs2, _⟩ := walkList_from inv post _ wpre ha hrpre hnp
            rw [recFrom_eq ((walkList_winv inv post _ wpre).files_mono p a ha) hr2]
            exact hs2 j hset

/-- Witness for `c4_from_stable`: the fallback binding of `b/a.go` to the
expected `z/a.go` survives a later walk segment that does not contain
`z/a.go` itself. -/
theorem c4_from_stable_witness :
    "z/a.go" ∈ ["z/a.go"] ∧
    "z/a.go" ∉ fileRels [WalkEntry.dir "c" MkdirOutcome.okMk, WalkEntry.file "c/q.go" "Q"] ∧
    recFrom (walkList (buildReg ["z/a.go"])
      [WalkEntry.dir "b" MkdirOutcome.okMk, WalkEntry.file "b/a.go" "B"]).1 "z/a.go" =
      some (Addr.disc "b/a.go") ∧
    recFrom (walkList (buildReg ["z/a.go"])
      ([WalkEntry.dir "b" MkdirOutcome.okMk, WalkEntry.file "b/a.go" "B"] ++
        [WalkEntry.dir "c" MkdirOutcome.okMk, WalkEntry.file "c/q.go" "Q"])).1 "z/a.go" =
      some (Addr.disc "b/a.go") :=
  ⟨by decide, by decide, by decide,
    c4_from_stable ["z/a.go"]
      [WalkEntry.dir "b" MkdirOutcome.okMk, WalkEntry.file "b/a.go" "B"]
      [WalkEntry.dir "c" MkdirOutcome.okMk, WalkEntry.file "c/q.go" "Q"]
      "z/a.go" (Addr.disc "b/a.go") (by decide) (by decide) (by decide)⟩

/-- C10: a duplicated expected path keeps exactly one live record in the
path-keyed map; that record is marked non-unique by the duplicate
registration, its resolution pointer starts unset, and if the exact path
is never walked the pointer stays unset for the whole walk — so a
duplicated expected path can never be satisfied by basename fallback, only
by an exact-path match or by placeholder synthesis. -/
theorem c10_duplicate_expected (expected : List String) (entries : List WalkEntry) (p : String)
    (hdup : 2 ≤ countPath expected p)
    (hnw : p ∉ fileRels entries) :
    ∃ a r r2, (buildReg expected).files p = some a ∧ (buildReg expected).heap a = some r ∧
      r.unique = false ∧ r.fromIdx = none ∧
      ((walkList (buildReg expected) entries).1).files p = some a ∧
      ((walkList (buildReg expected) entries).1).heap a = some r2 ∧
      r2.fromIdx = none := by
  have inv := buildReg_inv expected
  have hmem : p ∈ expected := mem_of_countPath_pos (by omega)
  have hsome : ((buildReg expected).files p).isSome := (inv.files_dom p).mpr hmem
  cases ha : (buildReg expected).files p with
  | none => rw [ha] at hsome ; cases hsome
  | some a =>
      obtain ⟨r, hr, _hp2, _hb2, _he2, _hc2, hfrom, _ha2, huniq⟩ := inv.files_rec p a ha
      have hcb : 2 ≤ countBase expected (basenameOf p) :=
        le_trans hdup (countPath_le_countBase _ _)
      have hru : r.unique = false := by
        cases hu : r.unique with
        | false => rfl
        | true => exact absurd (huniq.mp hu) (by omega)
      have w0 := winv_init inv
      obtain ⟨r2, hr2, _, hn2, _, _⟩ := walkList_from inv entries _ w0 ha hr hnw
      exact ⟨a, r, r2, rfl, hr, hru, hfrom,
        (walkList_winv inv entries _ w0).files_mono p a ha, hr2, hn2 hfrom hru⟩

/-- Witness for `c10_duplicate_expected`: the expected list registers
`a/f.go` twice; the scratch tree offers a basename-only candidate
`x/f.go`, which is not allowed to bind. -/
theorem c10_duplicate_expected_witness :
    2 ≤ countPath ["a/f.go", "a/f.go"] "a/f.go" ∧
    "a/f.go" ∉ fileRels [WalkEntry.dir "x" MkdirOutcome.okMk, WalkEntry.file "x/f.go" "X"] ∧
    (∃ a r r2, (buildReg ["a/f.go", "a/f.go"]).files "a/f.go" = some a ∧
      (buildReg ["a/f.go", "a/f.go"]).heap a = some r ∧
      r.unique = false ∧ r.fromIdx = none ∧
      ((walkList (buildReg ["a/f.go", "a/f.go"])
        [WalkEntry.dir "x" MkdirOutcome.okMk, WalkEntry.file "x/f.go" "X"]).1).files "a/f.go" =
        some a ∧
      ((walkList (buildReg ["a/f.go", "a/f.go"])
        [WalkEntry.dir "x" MkdirOutcome.okMk, WalkEntry.file "x/f.go" "X"]).1).heap a =
        some r2 ∧
      r2.fromIdx = none) :=
  ⟨by decide, by decide,
    c10_duplicate_expected ["a/f.go", "a/f.go"]
      [WalkEntry.dir "x" MkdirOutcome.okMk, WalkEntry.file "x/f.go" "X"] "a/f.go"
      (by decide) (by decide)⟩

theorem walkFileStep_keys_disc {st : Reg} {rel : String} (hf : st.files rel = none) :
    (walkFileStep st rel).fileKeys = st.fileKeys ++ [rel] := by
  rw [walkFileStep_disc_eq hf]
  cases hbb : (discState st rel).byBase (basenameOf rel) with
  | none => rfl
  | some c =>
      dsimp only
      cases hheap : (discState st rel).heap c with
      | none => rfl
      | some copyTo =>
          dsimp only
          by_cases hcu : copyTo.unique = false
          · rw [if_pos hcu]
            rfl
          · rw [if_neg hcu]
            cases hfrom : copyTo.fromIdx with
            | some x => rfl
            | none => rfl

theorem walkFileStep_files_mono {st : Reg} {p : String} {a : Addr}
    (h : st.files p = some a) (rel : String) : (walkFileStep st rel).files p = some a := by
  cases hf : st.files rel with
  | some a2 =>
      rw [walkFileStep_exact_eq hf]
      exact h
  | none =>
      have hne : p ≠ rel := by
        intro hc
        rw [hc, hf] at h
        cases h
      have hdisc : (discState st rel).files p = some a := by
        show upd st.files rel (Addr.disc rel) p = some a
        rw [upd_other st.files _ hne]
        exact h
      rw [walkFileStep_disc_eq hf]
      cases hbb : (discState st rel).byBase (basenameOf rel) with
      | none => exact hdisc
      | some c =>
          dsimp only
          cases hheap : (discState st rel).heap c with
          | none => exact hdisc
          | some copyTo =>
              dsimp only
              by_cases hcu : copyTo.unique = false
              · rw [if_pos hcu]
                exact hdisc
              · rw [if_neg hcu]
                cases hfrom : copyTo.fromIdx with
                | some x => exact hdisc
                | none => exact hdisc

theorem walkStep_files_mono {st st2 : Reg} {p : String} {a : Addr}
    (h : st.files p = some a) {e : WalkEntry} (hs : walkStep st e = some st2) :
    st2.files p = some a := by
  cases e with
  | dir d o =>
      simp only [walkStep] at hs
      by_cases ho : o = MkdirOutcome.failMk
      · rw [if_pos ho] at hs
        cases hs
      · rw [if_neg ho] at hs
        injection hs with h2
        rw [← h2]
        exact h
  | file rel content =>
      simp only [walkStep] at hs
      by_cases hsf : hasSuffix rel ".go" = true
      · rw [if_pos hsf] at hs
        injection hs with h2
        rw [← h2]
        exact walkFileStep_files_mono h rel
      · rw [if_neg hsf] at hs
        injection hs with h2
        rw [← h2]
        exact h

theorem walkList_files_mono_any :
    ∀ (entries : List WalkEntry) (st : Reg) {p : String} {a : Addr},
      st.files p = some a → ((walkList st entries).1).files p = some a
  | [], st, p, a, h => h
  | e :: rest, st, p, a, h => by
      unfold walkList
      cases hs : walkStep st e with
      | none => exact h
      | some st2 => exact walkList_files_mono_any rest st2 (walkStep_files_mono h hs)

/-- The walk only appends keys, and every appended key is bound in `files`
to its discovered-record address. -/
theorem walkList_keys :
    ∀ (entries : List WalkEntry) (st : Reg),
      ∃ l, ((walkList st entries).1).fileKeys = st.fileKeys ++ l ∧
        ∀ k ∈ l, ((walkList st entries).1).files k = some (Addr.disc k)
  | [], st => ⟨[], by simp [walkList], by simp⟩
  | e :: rest, st => by
      unfold walkList
      cases hs : walkStep st e with
      | none => exact ⟨[], by simp, by simp⟩
      | some st2 =>
          obtain ⟨l, hl, hlf⟩ := walkList_keys rest st2
          have hkey : st2.fileKeys = st.fileKeys ∨
              ∃ rel, st2.fileKeys = st.fileKeys ++ [rel] ∧ st2.files rel = some (Addr.disc rel) := by
            cases e with
            | dir d o =>
                simp only [walkStep] at hs
                by_cases ho : o = MkdirOutcome.failMk
                · rw [if_pos ho] at hs
                  cases hs
                · rw [if_neg ho] at hs
                  injection hs with h2
                  rw [← h2]
                  exact Or.inl rfl
            | file rel content =>
                simp only [walkStep] at hs
                by_cases hsf : hasSuffix rel ".go" = true
                · rw [if_pos hsf] at hs
                  injection hs with h2
                  rw [← h2]
                  cases hf : st.files rel with
                  | some a2 =>
                      rw [walkFileStep_exact_eq hf]
                      exact Or.inl rfl
                  | none =>
                      right
                      refine ⟨rel, walkFileStep_keys_disc hf, ?_⟩
                      rw [walkFileStep_disc_eq hf]
                      have hdisc : (discState st rel).files rel = some (Addr.disc rel) :=
                        upd_same _ _ _
                      cases hbb : (discState st rel).byBase (basenameOf rel) with
                      | none => exact hdisc
                      | some c =>
                          dsimp only
                          cases hheap : (discState st rel).heap c with
                          | none => exact hdisc
                          | some copyTo =>
                              dsimp only
                              by_cases hcu : copyTo.unique = false
                              · rw [if_pos hcu]
                                exact hdisc
                              · rw [if_neg hcu]
                                cases hfrom : copyTo.fromIdx with
                                | some x => exact hdisc
                                | none => exact hdisc
                · rw [if_neg hsf] at hs
                  injection hs with h2
                  rw [← h2]
                  exact Or.inl rfl
          rcases hkey with hk | ⟨rel, hk, hkf⟩
          · exact ⟨l, by rw [hl, hk], hlf⟩
          · exact ⟨rel :: l, by rw [hl, hk] ; simp, by
              intro k hkm
              rcases List.mem_cons.mp hkm with rfl | hkm2
              · exact walkList_files_mono_any rest st2 hkf
              · exact hlf k hkm2⟩

theorem walkFileStep_files_other {st : Reg} {q : String} (rel : String) (hq : q ≠ rel) :
    (walkFileStep st rel).files q = st.files q := by
  cases hf : st.files rel with
  | some a2 =>
      rw [walkFileStep_exact_eq hf]
  | none =>
      have hdisc : (discState st rel).files q = st.files q := by
        show upd st.files rel (Addr.disc rel) q = st.files q
        rw [upd_other st.files _ hq]
      rw [walkFileStep_disc_eq hf]
      cases hbb : (discState st rel).byBase (basenameOf rel) with
      | none => exact hdisc
      | some c =>
          dsimp only
          cases hheap : (discState st rel).heap c with
          | none => exact hdisc
          | some copyTo =>
              dsimp only
              by_cases hcu : copyTo.unique = false
              · rw [if_pos hcu]
                exact hdisc
              · rw [if_neg hcu]
                cases hfrom : copyTo.fromIdx with
                | some x => exact hdisc
                | none => exact hdisc

/-- Invariant on records at discovered addresses, maintained as long as no
walked relative path repeats: their resolution pointer is never set, they
are always marked created, and an ambiguous one is never expected. -/
structure DiscInv (st : Reg) : Prop where
  disc_from : ∀ q r, st.heap (Addr.disc q) = some r →
    r.fromIdx = none ∧ r.created = true ∧ (r.ambiguious = true → r.expected = false)

theorem discInv_init {expected : List String} {reg : Reg} (inv : RegInv expected reg) :
    DiscInv reg := by
  constructor
  intro q r h
  rw [(inv.heap_exp_only q).1] at h
  cases h

theorem walkFileStep_discInv {st : Reg} (d : DiscInv st) (rel : String)
    (hfresh : st.files rel = none ∨ ∃ i, st.files rel = some (Addr.exp i))
    (hbbexp : ∀ b a, st.byBase b = some a → ∃ i, a = Addr.exp i) :
    DiscInv (walkFileStep st rel) := by
  cases hf : st.files rel with
  | some a2 =>
      rw [walkFileStep_exact_eq hf]
      have ha2 : ∃ i, a2 = Addr.exp i := by
        rcases hfresh with hn | he
        · rw [hn] at hf
          cases hf
        · obtain ⟨i, hi⟩ := he
          rw [hf] at hi
          injection hi with h2
          exact ⟨i, h2⟩
      obtain ⟨i, hi⟩ := ha2
      constructor
      intro q r h
      dsimp only at h
      rw [hmod_other _ _ (by rw [hi] ; intro hc ; cases hc)] at h
      rw [upd_other st.heap _ (by intro hc ; cases hc)] at h
      exact d.disc_from q r h
  | none =>
      rw [walkFileStep_disc_eq hf]
      have hd1 : DiscInv (discState st rel) := by
        constructor
        intro q r h
        by_cases hq : q = rel
        · rw [hq] at h
          rw [show (discState st rel).heap (Addr.disc rel) =
              upd st.heap (Addr.disc rel) (discInfo rel) (Addr.disc rel) from rfl,
            upd_same] at h
          injection h with h2
          rw [← h2]
          exact ⟨rfl, rfl, fun hc => by cases hc⟩
        · rw [show (discState st rel).heap (Addr.disc q) =
              upd st.heap (Addr.disc rel) (discInfo rel) (Addr.disc q) from rfl,
            upd_other st.heap _ (by intro hc ; injection hc with hc2 ; exact hq hc2)] at h
          exact d.disc_from q r h
      cases hbb : (discState st rel).byBase (basenameOf rel) with
      | none => exact hd1
      | some c =>
          have hcexp : ∃ i, c = Addr.exp i := hbbexp _ c hbb
          obtain ⟨i, hi⟩ := hcexp
          dsimp only
          cases hheap : (discState st rel).heap c with
          | none => exact hd1
          | some copyTo =>
              dsimp only
              by_cases hcu : copyTo.unique = false
              · rw [if_pos hcu]
                exact hd1
              · rw [if_neg hcu]
                cases hfrom : copyTo.fromIdx with
                | some x =>
                    constructor
                    intro q r h
                    dsimp only at h
                    by_cases hq : q = rel
                    · rw [hq] at h
                      rw [hmod_same] at h
                      rw [hmod_other _ _ (by rw [hi] ; intro hc ; cases hc)] at h
                      rw [show (discState st rel).heap (Addr.disc rel) =
                          upd st.heap (Addr.disc rel) (discInfo rel) (Addr.disc rel) from rfl,
                        upd_same] at h
                      dsimp only [Option.map] at h
                      injection h with h2
                      rw [← h2]
                      exact ⟨rfl, rfl, fun _ => rfl⟩
                    · rw [hmod_other _ _ (by intro hc ; injection hc with hc2 ; exact hq hc2)] at h
                      rw [hmod_other _ _ (by rw [hi] ; intro hc ; cases hc)] at h
                      exact hd1.disc_from q r h
                | none =>
                    constructor
                    intro q r h
                    dsimp only at h
                    by_cases hq : q = rel
                    · rw [hq] at h
                      rw [hmod_same] at h
                      rw [hmod_other _ _ (by rw [hi] ; intro hc ; cases hc)] at h
                      rw [show (discState st rel).heap (Addr.disc rel) =
                          upd st.heap (Addr.disc rel) (discInfo rel) (Addr.disc rel) from rfl,
                        upd_same] at h
                      dsimp only [Option.map] at h
                      injection h with h2
                      rw [← h2]
                      exact ⟨rfl, rfl, fun hc => by cases hc⟩
                    · rw [hmod_other _ _ (by intro hc ; injection hc with hc2 ; exact hq hc2)] at h
                      rw [hmod_other _ _ (by rw [hi] ; intro hc ; cases hc)] at h
                      exact hd1.disc_from q r h

theorem walkList_discInv {expected : List String} {reg : Reg} (inv : RegInv expected reg) :
    ∀ (entries : List WalkEntry) (st : Reg), WInv reg st → DiscInv st →
      (∀ rel, rel ∈ fileRels entries →
        st.files rel = none ∨ ∃ i, st.files rel = some (Addr.exp i)) →
      (fileRels entries).Nodup →
      DiscInv (walkList st entries).1
  | [], st, w, d, hfresh, hnd => d
  | e :: rest, st, w, d, hfresh, hnd => by
      unfold walkList
      cases hs : walkStep st e with
      | none => exact d
      | some st2 =>
          have hw2 := walkStep_winv inv w hs
          cases e with
          | dir dd o =>
              simp only [walkStep] at hs
              by_cases ho : o = MkdirOutcome.failMk
              · rw [if_pos ho] at hs
                cases hs
              · rw [if_neg ho] at hs
                injection hs with h2
                subst h2
                exact walkList_discInv inv rest st hw2 d
                  (fun rel hrel => hfresh rel (by simpa [fileRels] using hrel))
                  (by simpa [fileRels] using hnd)
          | file rel content =>
              simp only [walkStep] at hs
              have hrelmem : rel ∈ fileRels (WalkEntry.file rel content :: rest) := by
                simp [fileRels]
              have hndrest : (fileRels rest).Nodup := by
                simp only [fileRels, List.nodup_cons] at hnd
                exact hnd.2
              have hrelnotin : rel ∉ fileRels rest := by
                simp only [fileRels, List.nodup_cons] at hnd
                exact hnd.1
              by_cases hsf : hasSuffix rel ".go" = true
              · rw [if_pos hsf] at hs
                injection hs with h2
                subst h2
                have hbbexp : ∀ b a, st.byBase b = some a → ∃ i, a = Addr.exp i := by
                  intro b a hba
                  rw [w.byBase_eq] at hba
                  obtain ⟨i, hi, _⟩ := inv.byBase_exp b a hba
                  exact ⟨i, hi⟩
                have hd2 := walkFileStep_discInv d rel (hfresh rel hrelmem) hbbexp
                refine walkList_discInv inv rest _ hw2 hd2 ?_ hndrest
                intro rel2 hrel2
                have hne2 : rel2 ≠ rel := by
                  intro hc
                  rw [hc] at hrel2
                  exact hrelnotin hrel2
                rw [walkFileStep_files_other rel hne2]
                exact hfresh rel2 (by simp [fileRels] ; right ; exact hrel2)
              · rw [if_neg hsf] at hs
                injection hs with h2
                subst h2
                refine walkList_discInv inv rest st hw2 d ?_ hndrest
                intro rel2 hrel2
                exact hfresh rel2 (by simp [fileRels] ; right ; exact hrel2)

theorem emitRecord_noop (scratch : String → Option String) (heap : Addr → Option GenFileInfo)
    (out : List (String × String)) (buf : List String) {r : GenFileInfo}
    (hf : r.fromIdx = none) (hc : r.expected = true → r.created = true)
    (ha : r.expected = true → r.ambiguious = false) :
    emitRecord scratch heap out buf r = some (out, buf) := by
  unfold emitRecord
  cases he : r.expected with
  | false => simp [he, hf]
  | true => simp [he, hc he, ha he, hf]

theorem emitRecord_placeholder (scratch : String → Option String)
    (heap : Addr → Option GenFileInfo) (out : List (String × String)) (buf : List String)
    {r : GenFileInfo} (he : r.expected = true) (hc : r.created = false) :
    emitRecord scratch heap out buf r =
      some ((r.path, placeholderContent) :: out, buf) := by
  unfold emitRecord
  simp [he, hc]

theorem emitList_noop_tail (scratch : String → Option String) (st : Reg) :
    ∀ (keys : List String) (out : List (String × String)),
      (∀ k ∈ keys, ∀ a r, st.files k = some a → st.heap a = some r →
        r.fromIdx = none ∧ (r.expected = true → r.created = true) ∧
        (r.expected = true → r.ambiguious = false)) →
      emitList scratch st keys out [] = (out, none)
  | [], out, h => rfl
  | k :: rest, out, h => by
      unfold emitList
      cases hfk : st.files k with
      | none =>
          dsimp only
          exact emitList_noop_tail scratch st rest out
            (fun k2 hk2 => h k2 (List.mem_cons_of_mem k hk2))
      | some a =>
          dsimp only
          cases hrk : st.heap a with
          | none =>
              dsimp only
              exact emitList_noop_tail scratch st rest out
                (fun k2 hk2 => h k2 (List.mem_cons_of_mem k hk2))
          | some r =>
              dsimp only
              obtain ⟨h1, h2, h3⟩ := h k (List.mem_cons_self k rest) a r hfk hrk
              rw [emitRecord_noop scratch st.heap out [] h1 h2 h3]
              simp only [List.isEmpty_nil, if_true]
              exact emitList_noop_tail scratch st rest out
                (fun k2 hk2 => h k2 (List.mem_cons_of_mem k hk2))

theorem registerExpected_fileKeys (st : Reg) (i : Nat) (p : String) :
    (registerExpected st i p).fileKeys =
      if (st.files p).isSome then st.fileKeys else st.fileKeys ++ [p] := by
  cases hb : st.byBase (basenameOf p) with
  | none => rw [registerExpected_none_eq hb]
  | some c => rw [registerExpected_some_eq hb]

theorem buildReg_pair_keys {p₁ p₂ : String} (hne : p₁ ≠ p₂) :
    (buildReg [p₁, p₂]).fileKeys = [p₁, p₂] := by
  show (registerExpected (registerExpected emptyReg 0 p₁) 1 p₂).fileKeys = [p₁, p₂]
  rw [registerExpected_fileKeys]
  rw [registerExpected_none_eq (show emptyReg.byBase (basenameOf p₁) = none from rfl)]
  dsimp only
  rw [upd_other emptyReg.files _ (fun hc => hne hc.symm)]
  show (if (Option.none).isSome = true then [] ++ [p₁] else [] ++ [p₁] ++ [p₂]) = [p₁, p₂]
  simp

/-- C5 (amended): when two expected paths share a basename and the scratch
tree offers only basename-level matches for them (neither exact path is
ever walked), neither record is resolved via basename fallback — the
shared basename is ineligible for fallback — and instead of reporting a
failure the run placeholder-fills both records and succeeds. -/
theorem c5_shared_basename_amended (p₁ p₂ : String) (entries : List WalkEntry)
    (hb : basenameOf p₁ = basenameOf p₂) (hne : p₁ ≠ p₂)
    (h1 : p₁ ∉ fileRels entries) (h2 : p₂ ∉ fileRels entries)
    (hnodup : (fileRels entries).Nodup) :
    runCore [p₁, p₂] entries =
      ([(p₂, placeholderContent), (p₁, placeholderContent)], none) ∧
    recFrom (walkList (buildReg [p₁, p₂]) entries).1 p₁ = none ∧
    recFrom (walkList (buildReg [p₁, p₂]) entries).1 p₂ = none := by
  have inv := buildReg_inv [p₁, p₂]
  have hcnt1 : countBase [p₁, p₂] (basenameOf p₁) = 2 := by
    rw [show [p₁, p₂] = [p₁] ++ [p₂] from rfl, countBase_append,
      countBase_singleton, countBase_singleton, if_pos rfl, if_pos hb.symm]
  have hcnt2 : countBase [p₁, p₂] (basenameOf p₂) = 2 := by
    rw [← hb]
    exact hcnt1
  have w0 := winv_init inv
  have wfin := walkList_winv inv entries _ w0
  have hrec : ∀ p, p ∈ ([p₁, p₂] : List String) → countBase [p₁, p₂] (basenameOf p) = 2 →
      p ∉ fileRels entries →
      ∃ a r, (buildReg [p₁, p₂]).files p = some a ∧
        ((walkList (buildReg [p₁, p₂]) entries).1).files p = some a ∧
        ((walkList (buildReg [p₁, p₂]) entries).1).heap a = some r ∧
        r.expected = true ∧ r.created = false ∧ r.fromIdx = none ∧ r.path = p := by
    intro p hmem hcnt hnw
    have hsome : ((buildReg [p₁, p₂]).files p).isSome := (inv.files_dom p).mpr hmem
    cases ha : (buildReg [p₁, p₂]).files p with
    | none => rw [ha] at hsome ; cases hsome
    | some a =>
        obtain ⟨r, hr, hpath, _hb2, hexp, hcr, hfrom, _ha2, huniq⟩ := inv.files_rec p a ha
        have hru : r.unique = false := by
          cases hu : r.unique with
          | false => rfl
          | true => exact absurd (huniq.mp hu) (by omega)
        obtain ⟨r2, hr2, _, _, _, hid⟩ := walkList_from inv entries _ w0 ha hr hnw
        rw [hid hru] at hr2
        exact ⟨a, r, rfl, wfin.files_mono p a ha, hr2, hexp, hcr, hfrom, hpath⟩
  obtain ⟨a₁, r₁, ha₁, hfw₁, hrw₁, hre₁, hrc₁, hrf₁, hrp₁⟩ :=
    hrec p₁ (by simp) hcnt1 h1
  obtain ⟨a₂, r₂, ha₂, hfw₂, hrw₂, hre₂, hrc₂, hrf₂, hrp₂⟩ :=
    hrec p₂ (by simp) hcnt2 h2
  have hdisc : DiscInv (walkList (buildReg [p₁, p₂]) entries).1 := by
    refine walkList_discInv inv entries _ w0 (discInv_init inv) ?_ hnodup
    intro rel hrel
    cases hfr : (buildReg [p₁, p₂]).files rel with
    | none => exact Or.inl rfl
    | some a =>
        right
        obtain ⟨i, hi, _⟩ := inv.files_exp rel a hfr
        exact ⟨i, by rw [hi]⟩
  obtain ⟨l, hkeys, hkf⟩ := walkList_keys entries (buildReg [p₁, p₂])
  rw [buildReg_pair_keys hne] at hkeys
  refine ⟨?_, ?_, ?_⟩
  · show emitList (scratchOf entries) (walkList (buildReg [p₁, p₂]) entries).1
      ((walkList (buildReg [p₁, p₂]) entries).1).fileKeys [] [] = _
    rw [hkeys]
    show emitList (scratchOf entries) (walkList (buildReg [p₁, p₂]) entries).1
      (p₁ :: p₂ :: l) [] [] = _
    unfold emitList
    rw [hfw₁]
    dsimp only
    rw [hrw₁]
    dsimp only
    rw [emitRecord_placeholder _ _ _ _ hre₁ hrc₁]
    dsimp only
    simp only [List.isEmpty_nil, if_true]
    unfold emitList
    rw [hfw₂]
    dsimp only
    rw [hrw₂]
    dsimp only
    rw [emitRecord_placeholder _ _ _ _ hre₂ hrc₂]
    dsimp only
    simp only [List.isEmpty_nil, if_true]
    rw [hrp₁, hrp₂]
    refine emitList_noop_tail _ _ l _ ?_
    intro k hk aq rq hfq hrq
    have hfk := hkf k hk
    rw [hfq] at hfk
    injection hfk with hfk2
    rw [hfk2] at hrq
    obtain ⟨hq1, hq2, hq3⟩ := hdisc.disc_from k rq hrq
    refine ⟨hq1, fun _ => hq2, ?_⟩
    intro hqe
    cases hqa : rq.ambiguious with
    | false => rfl
    | true => rw [hq3 hqa] at hqe ; cases hqe
  · rw [recFrom_eq hfw₁ hrw₁]
    exact hrf₁
  · rw [recFrom_eq hfw₂ hrw₂]
    exact hrf₂

/-- Witness for `c5_shared_basename_amended`: the spec's own end-to-end
scenario, two expected paths sharing `foo.gen.go` with one basename-only
candidate in scratch. -/
theorem c5_shared_basename_amended_witness :
    basenameOf "a/foo.gen.go" = basenameOf "b/foo.gen.go" ∧
    runCore ["a/foo.gen.go", "b/foo.gen.go"]
      [WalkEntry.dir "x" MkdirOutcome.okMk, WalkEntry.file "x/foo.gen.go" "C"] =
      ([("b/foo.gen.go", placeholderContent), ("a/foo.gen.go", placeholderContent)], none) ∧
    recFrom (walkList (buildReg ["a/foo.gen.go", "b/foo.gen.go"])
      [WalkEntry.dir "x" MkdirOutcome.okMk, WalkEntry.file "x/foo.gen.go" "C"]).1
      "a/foo.gen.go" = none ∧
    recFrom (walkList (buildReg ["a/foo.gen.go", "b/foo.gen.go"])
      [WalkEntry.dir "x" MkdirOutcome.okMk, WalkEntry.file "x/foo.gen.go" "C"]).1
      "b/foo.gen.go" = none :=
  ⟨by decide,
    (c5_shared_basename_amended "a/foo.gen.go" "b/foo.gen.go"
      [WalkEntry.dir "x" MkdirOutcome.okMk, WalkEntry.file "x/foo.gen.go" "C"]
      (by decide) (by decide) (by decide) (by decide) (by decide)).1,
    (c5_shared_basename_amended "a/foo.gen.go" "b/foo.gen.go"
      [WalkEntry.dir "x" MkdirOutcome.okMk, WalkEntry.file "x/foo.gen.go" "C"]
      (by decide) (by decide) (by decide) (by decide) (by decide)).2.1,
    (c5_shared_basename_amended "a/foo.gen.go" "b/foo.gen.go"
      [WalkEntry.dir "x" MkdirOutcome.okMk, WalkEntry.file "x/foo.gen.go" "C"]
      (by decide) (by decide) (by decide) (by decide) (by decide)).2.2⟩

/-- A walked file whose path and basename both differ from those of an
expected record leaves that record completely untouched. -/
theorem walkFileStep_frame {expected : List String} {reg st : Reg} (inv : RegInv expected reg)
    (w : WInv reg st) {p : String} {a : Addr} (hpa : reg.files p = some a)
    {rel : String} (hnep : rel ≠ p) (hneb : basenameOf rel ≠ basenameOf p)
    {r : GenFileInfo} (hr : st.heap a = some r) :
    (walkFileStep st rel).heap a = some r := by
  obtain ⟨i, hexp⟩ := reg_addr_exp inv hpa
  obtain ⟨r0, hr0, _hp0, hb0, _⟩ := inv.files_rec p a hpa
  have hsta : st.files p = some a := w.files_mono p a hpa
  have hnd : ∀ q, a ≠ Addr.disc q := by
    intro q hcontra
    rw [hexp] at hcontra
    cases hcontra
  have hns : ∀ q, a ≠ Addr.src q := by
    intro q hcontra
    rw [hexp] at hcontra
    cases hcontra
  cases hf : st.files rel with
  | some a2 =>
      rw [walkFileStep_exact_eq hf]
      have hane : a ≠ a2 := files_addr_ne inv w hsta hf (fun hc => hnep hc.symm)
      dsimp only
      rw [hmod_other _ _ hane, upd_other st.heap _ (hns rel)]
      exact hr
  | none =>
      rw [walkFileStep_disc_eq hf]
      have hst1 : (discState st rel).heap a = some r := by
        show upd st.heap (Addr.disc rel) (discInfo rel) a = some r
        rw [upd_other st.heap _ (hnd rel)]
        exact hr
      cases hbb : (discState st rel).byBase (basenameOf rel) with
      | none => exact hst1
      | some c =>
          have hca : c ≠ a := by
            intro hcontra
            have hbbst : st.byBase (basenameOf rel) = some c := hbb
            rw [w.byBase_eq] at hbbst
            obtain ⟨rc, hrc, hrcb, _⟩ := inv.byBase_rec _ c hbbst
            rw [hcontra, hr0] at hrc
            injection hrc with h2
            rw [← h2] at hrcb
            rw [hb0] at hrcb
            exact hneb hrcb.symm
          dsimp only
          cases hheap : (discState st rel).heap c with
          | none => exact hst1
          | some copyTo =>
              dsimp only
              by_cases hcu : copyTo.unique = false
              · rw [if_pos hcu]
                exact hst1
              · rw [if_neg hcu]
                cases hfrom : copyTo.fromIdx with
                | some x =>
                    dsimp only
                    rw [hmod_other _ _ (hnd rel), hmod_other _ _ (fun hc => hca hc.symm)]
                    exact hst1
                | none =>
                    dsimp only
                    rw [hmod_other _ _ (hnd rel), hmod_other _ _ (fun hc => hca hc.symm)]
                    exact hst1

theorem walkStep_frame {expected : List String} {reg st st2 : Reg} (inv : RegInv expected reg)
    (w : WInv reg st) {p : String} {a : Addr} (hpa : reg.files p = some a)
    {e : WalkEntry}
    (hne : ∀ rel c, e = WalkEntry.file rel c → rel ≠ p ∧ basenameOf rel ≠ basenameOf p)
    (hs : walkStep st e = some st2) {r : GenFileInfo} (hr : st.heap a = some r) :
    st2.heap a = some r := by
  cases e with
  | dir d o =>
      simp only [walkStep] at hs
      by_cases ho : o = MkdirOutcome.failMk
      · rw [if_pos ho] at hs
        cases hs
      · rw [if_neg ho] at hs
        injection hs with h2
        rw [← h2]
        exact hr
  | file rel content =>
      simp only [walkStep] at hs
      by_cases hsf : hasSuffix rel ".go" = true
      · rw [if_pos hsf] at hs
        injection hs with h2
        rw [← h2]
        exact walkFileStep_frame inv w hpa (hne rel content rfl).1 (hne rel content rfl).2 hr
      · rw [if_neg hsf] at hs
        injection hs with h2
        rw [← h2]
        exact hr

theorem walkList_frame {expected : List String} {reg : Reg} (inv : RegInv expected reg) :
    ∀ (entries : List WalkEntry) (st : Reg), WInv reg st →
      ∀ {p : String} {a : Addr} {r : GenFileInfo}, reg.files p = some a →
        st.heap a = some r →
        (∀ rel, rel ∈ fileRels entries → rel ≠ p ∧ basenameOf rel ≠ basenameOf p) →
        ((walkList st entries).1).heap a = some r
  | [], st, w, p, a, r, hpa, hr, hcond => hr
  | e :: rest, st, w, p, a, r, hpa, hr, hcond => by
      unfold walkList
      cases hs : walkStep st e with
      | none => exact hr
      | some st2 =>
          have hcondr : ∀ rel, rel ∈ fileRels rest → rel ≠ p ∧ basenameOf rel ≠ basenameOf p := by
            intro rel hrel
            apply hcond
            cases e with
            | dir d o => simpa [fileRels] using hrel
            | file rel2 c =>
                simp only [fileRels, List.mem_cons]
                exact Or.inr hrel
          have hnee : ∀ rel c, e = WalkEntry.file rel c →
              rel ≠ p ∧ basenameOf rel ≠ basenameOf p := by
            intro rel c hc
            apply hcond
            rw [hc]
            simp [fileRels]
          exact walkList_frame inv rest st2 (walkStep_winv inv w hs) hpa
            (walkStep_frame inv w hpa hnee hs hr) hcondr

/-- Once allocated, the source record of an exact match is never modified
by walk steps on other paths. -/
theorem walkList_src_pres {expected : List String} {reg : Reg} (inv : RegInv expected reg) :
    ∀ (entries : List WalkEntry) (st : Reg), WInv reg st →
      ∀ {p : String} {r : GenFileInfo}, st.heap (Addr.src p) = some r →
        p ∉ fileRels entries →
        ((walkList st entries).1).heap (Addr.src p) = some r
  | [], st, w, p, r, hr, hnp => hr
  | e :: rest, st, w, p, r, hr, hnp => by
      unfold walkList
      cases hs : walkStep st e with
      | none => exact hr
      | some st2 =>
          have hnprest : p ∉ fileRels rest := by
            intro hcontra
            apply hnp
            cases e with
            | dir d o => simpa [fileRels] using hcontra
            | file rel c =>
                simp only [fileRels, List.mem_cons]
                exact Or.inr hcontra
          have hstep : st2.heap (Addr.src p) = some r := by
            cases e with
            | dir d o =>
                simp only [walkStep] at hs
                by_cases ho : o = MkdirOutcome.failMk
                · rw [if_pos ho] at hs
                  cases hs
                · rw [if_neg ho] at hs
                  injection hs with h2
                  rw [← h2]
                  exact hr
            | file rel content =>
                have hrelne : rel ≠ p := by
                  intro hc
                  rw [hc] at hnp
                  exact hnp (by simp [fileRels])
                simp only [walkStep] at hs
                by_cases hsf : hasSuffix rel ".go" = true
                · rw [if_pos hsf] at hs
                  injection hs with h2
                  rw [← h2]
                  cases hf : st.files rel with
                  | some a2 =>
                      rw [walkFileStep_exact_eq hf]
                      have ha2 : a2 ≠ Addr.src p := by
                        intro hcontra
                        rcases w.files_new rel a2 hf with hreg | hdisc
                        · obtain ⟨i, hi, _⟩ := inv.files_exp rel a2 hreg
                          rw [hcontra] at hi
                          cases hi
                        · rw [hcontra] at hdisc
                          cases hdisc
                      dsimp only
                      rw [hmod_other _ _ (fun hc => ha2 hc.symm)]
                      rw [upd_other st.heap _
                        (by intro hc ; injection hc with hc2 ; exact hrelne hc2.symm)]
                      exact hr
                  | none =>
                      rw [walkFileStep_disc_eq hf]
                      have hst1 : (discState st rel).heap (Addr.src p) = some r := by
                        show upd st.heap (Addr.disc rel) (discInfo rel) (Addr.src p) = some r
                        rw [upd_other st.heap _ (by intro hc ; cases hc)]
                        exact hr
                      cases hbb : (discState st rel).byBase (basenameOf rel) with
                      | none => exact hst1
                      | some c =>
                          have hcs : Addr.src p ≠ c := by
                            have hbbst : st.byBase (basenameOf rel) = some c := hbb
                            rw [w.byBase_eq] at hbbst
                            obtain ⟨i, hi, _⟩ := inv.byBase_exp _ c hbbst
                            rw [hi]
                            intro hc
                            cases hc
                          dsimp only
                          cases hheap : (discState st rel).heap c with
                          | none => exact hst1
                          | some copyTo =>
                              dsimp only
                              by_cases hcu : copyTo.unique = false
                              · rw [if_pos hcu]
                                exact hst1
                              · rw [if_neg hcu]
                                cases hfrom : copyTo.fromIdx with
                                | some x =>
                                    dsimp only
                                    rw [hmod_other _ _ (by intro hc ; cases hc),
                                      hmod_other _ _ hcs]
                                    exact hst1
                                | none =>
                                    dsimp only
                                    rw [hmod_other _ _ (by intro hc ; cases hc),
                                      hmod_other _ _ hcs]
                                    exact hst1
                · rw [if_neg hsf] at hs
                  injection hs with h2
                  rw [← h2]
                  exact hr
          exact walkList_src_pres inv rest st2 (walkStep_winv inv w hs) hstep hnprest

theorem walkList_no_abort :
    ∀ (entries : List WalkEntry) (st : Reg),
      (∀ d o, WalkEntry.dir d o ∈ entries → o ≠ MkdirOutcome.failMk) →
      (walkList st entries).2 = false
  | [], st, h => rfl
  | e :: rest, st, h => by
      unfold walkList
      cases hs : walkStep st e with
      | none =>
          exfalso
          cases e with
          | dir d o =>
              simp only [walkStep] at hs
              by_cases ho : o = MkdirOutcome.failMk
              · exact h d o (by simp) ho
              · rw [if_neg ho] at hs
                cases hs
          | file rel c =>
              simp only [walkStep] at hs
              by_cases hsf : hasSuffix rel ".go" = true
              · rw [if_pos hsf] at hs
                cases hs
              · rw [if_neg hsf] at hs
                cases hs
      | some st2 =>
          exact walkList_no_abort rest st2
            (fun d o hd => h d o (List.mem_cons_of_mem e hd))

theorem str_append_cancel {s a b : String} (h : s ++ a = s ++ b) : a = b := by
  have hd : (s ++ a).data = (s ++ b).data := congrArg String.data h
  rw [String.data_append, String.data_append] at hd
  cases a with
  | mk la =>
      cases b with
      | mk lb =>
          have : la = lb := List.append_cancel_left hd
          rw [this]

theorem rel_mem_of_file_mem :
    ∀ (entries : List WalkEntry) (rel c : String),
      WalkEntry.file rel c ∈ entries → rel ∈ fileRels entries
  | [], rel, c, hm => by cases hm
  | e :: rest, rel, c, hm => by
      rcases List.mem_cons.mp hm with hc | hc
      · rw [← hc]
        simp [fileRels]
      · cases e with
        | dir d o => simpa [fileRels] using rel_mem_of_file_mem rest rel c hc
        | file rel2 c2 =>
            simp only [fileRels, List.mem_cons]
            exact Or.inr (rel_mem_of_file_mem rest rel c hc)

theorem scratchOf_mem :
    ∀ (entries : List WalkEntry) (rel content : String),
      WalkEntry.file rel content ∈ entries → (fileRels entries).Nodup →
      scratchOf entries (tmpPrefix ++ rel) = some content
  | [], rel, content, hm, _ => by cases hm
  | WalkEntry.dir d o :: rest, rel, content, hm, hnd => by
      have hm2 : WalkEntry.file rel content ∈ rest := by
        rcases List.mem_cons.mp hm with hc | hc
        · cases hc
        · exact hc
      show scratchOf rest (tmpPrefix ++ rel) = some content
      exact scratchOf_mem rest rel content hm2 (by simpa [fileRels] using hnd)
  | WalkEntry.file rel2 c2 :: rest, rel, content, hm, hnd => by
      show (if tmpPrefix ++ rel = tmpPrefix ++ rel2 then some c2
        else scratchOf rest (tmpPrefix ++ rel)) = some content
      by_cases heq : rel = rel2
      · rw [if_pos (by rw [heq])]
        rcases List.mem_cons.mp hm with hc | hc
        · injection hc with h1 h2
          rw [h2]
        · exfalso
          have hmem := rel_mem_of_file_mem rest rel content hc
          rw [heq] at hmem
          simp only [fileRels, List.nodup_cons] at hnd
          exact hnd.1 hmem
      · rw [if_neg (fun hc => heq (str_append_cancel hc))]
        have hm2 : WalkEntry.file rel content ∈ rest := by
          rcases List.mem_cons.mp hm with hc | hc
          · injection hc with h1 h2
            exact absurd h1 heq
          · exact hc
        exact scratchOf_mem rest rel content hm2 (by
          simp only [fileRels, List.nodup_cons] at hnd
          exact hnd.2)

theorem emitRecord_copy (scratch : String → Option String) (heap : Addr → Option GenFileInfo)
    (out : List (String × String)) (buf : List String) {r r2 : GenFileInfo} {a2 : Addr}
    {data : String}
    (he : r.expected = true) (hc : r.created = true) (ha : r.ambiguious = false)
    (hf : r.fromIdx = some a2) (h2 : heap a2 = some r2) (hs : scratch r2.path = some data) :
    emitRecord scratch heap out buf r = some ((r.path, data) :: out, buf) := by
  unfold emitRecord
  simp [he, hc, ha, hf, h2, hs]

theorem emitRecord_out (scratch : String → Option String) (heap : Addr → Option GenFileInfo)
    (out : List (String × String)) (buf : List String) (r : GenFileInfo)
    {out1 : List (String × String)} {buf1 : List String}
    (h : emitRecord scratch heap out buf r = some (out1, buf1)) :
    out1 = out ∨ ∃ v, out1 = (r.path, v) :: out := by
  unfold emitRecord at h
  by_cases h1 : (r.expected && !r.created) = true
  · rw [if_pos h1] at h
    injection h with h2
    injection h2 with h3 h4
    exact Or.inr ⟨placeholderContent, h3.symm⟩
  · rw [if_neg h1] at h
    by_cases h2 : (r.expected && r.ambiguious) = true
    · rw [if_pos h2] at h
      injection h with h3
      injection h3 with h4 h5
      exact Or.inl h4.symm
    · rw [if_neg h2] at h
      cases hf : r.fromIdx with
      | none =>
          rw [hf] at h
          dsimp only at h
          injection h with h3
          injection h3 with h4 h5
          exact Or.inl h4.symm
      | some a2 =>
          rw [hf] at h
          dsimp only at h
          cases hh : heap a2 with
          | none => rw [hh] at h ; dsimp only at h ; cases h
          | some r2 =>
              rw [hh] at h
              dsimp only at h
              cases hs : scratch r2.path with
              | none => rw [hs] at h ; dsimp only at h ; cases h
              | some data =>
                  rw [hs] at h
                  dsimp only at h
                  injection h with h3
                  injection h3 with h4 h5
                  exact Or.inr ⟨data, h4.symm⟩

theorem lookup_cons_ne {t k v : String} {l : List (String × String)} (h : t ≠ k) :
    ((k, v) :: l).lookup t = l.lookup t := by
  simp [List.lookup, beq_eq_false_iff_ne.mpr h]

theorem lookup_cons_self {k v : String} {l : List (String × String)} :
    ((k, v) :: l).lookup k = some v := by
  simp [List.lookup]

theorem emitList_lookup (scratch : String → Option String) (st : Reg) :
    ∀ (keys : List String) (out : List (String × String)) (buf : List String)
      (outF : List (String × String)),
      emitList scratch st keys out buf = (outF, none) →
      ∀ t, (∀ k ∈ keys, ∀ b s, st.files k = some b → st.heap b = some s → s.path ≠ t) →
      outF.lookup t = out.lookup t
  | [], out, buf, outF, h, t, hcond => by
      injection h with h1 h2
      rw [← h1]
  | k :: rest, out, buf, outF, h, t, hcond => by
      unfold emitList at h
      cases hfk : st.files k with
      | none =>
          rw [hfk] at h
          dsimp only at h
          exact emitList_lookup scratch st rest out buf outF h t
            (fun k2 hk2 => hcond k2 (List.mem_cons_of_mem k hk2))
      | some b =>
          rw [hfk] at h
          dsimp only at h
          cases hrk : st.heap b with
          | none =>
              rw [hrk] at h
              dsimp only at h
              exact emitList_lookup scratch st rest out buf outF h t
                (fun k2 hk2 => hcond k2 (List.mem_cons_of_mem k hk2))
          | some s =>
              rw [hrk] at h
              dsimp only at h
              cases her : emitRecord scratch st.heap out buf s with
              | none =>
                  rw [her] at h
                  injection h with h1 h2
                  cases h2
              | some outbuf =>
                  rw [her] at h
                  obtain ⟨out1, buf1⟩ := outbuf
                  dsimp only at h
                  by_cases hbe : buf1.isEmpty = true
                  · rw [if_pos hbe] at h
                    have hrec := emitList_lookup scratch st rest out1 buf1 outF h t
                      (fun k2 hk2 => hcond k2 (List.mem_cons_of_mem k hk2))
                    rw [hrec]
                    rcases emitRecord_out scratch st.heap out buf s her with h1 | ⟨v, h1⟩
                    · rw [h1]
                    · rw [h1]
                      exact lookup_cons_ne (fun hc =>
                        hcond k (List.mem_cons_self k rest) b s hfk hrk hc.symm)
                  · rw [if_neg hbe] at h
                    injection h with h1 h2
                    cases h2

theorem emitList_write (scratch : String → Option String) (st : Reg) :
    ∀ (k₁ k₂ : List String) (p : String) (out : List (String × String))
      (buf : List String) (outF : List (String × String)),
      emitList scratch st (k₁ ++ p :: k₂) out buf = (outF, none) →
      ∀ (a a2 : Addr) (r r2 : GenFileInfo) (data : String),
        st.files p = some a → st.heap a = some r →
        r.expected = true → r.created = true → r.ambiguious = false → r.fromIdx = some a2 →
        st.heap a2 = some r2 → scratch r2.path = some data →
        (∀ k ∈ k₂, ∀ b s, st.files k = some b → st.heap b = some s → s.path ≠ r.path) →
        outF.lookup r.path = some data
  | [], k₂, p, out, buf, outF, h, a, a2, r, r2, data, hfp, hrp, he, hc, ha, hf, h2, hs,
      hcond => by
      rw [List.nil_append] at h
      unfold emitList at h
      rw [hfp] at h
      dsimp only at h
      rw [hrp] at h
      dsimp only at h
      rw [emitRecord_copy scratch st.heap out buf he hc ha hf h2 hs] at h
      dsimp only at h
      by_cases hbe : buf.isEmpty = true
      · rw [if_pos hbe] at h
        have := emitList_lookup scratch st k₂ ((r.path, data) :: out) buf outF h r.path hcond
        rw [this, lookup_cons_self]
      · rw [if_neg hbe] at h
        injection h with h1 h2
        cases h2
  | k :: k₁, k₂, p, out, buf, outF, h, a, a2, r, r2, data, hfp, hrp, he, hc, ha, hf, h2, hs,
      hcond => by
      rw [List.cons_append] at h
      unfold emitList at h
      cases hfk : st.files k with
      | none =>
          rw [hfk] at h
          dsimp only at h
          exact emitList_write scratch st k₁ k₂ p out buf outF h a a2 r r2 data
            hfp hrp he hc ha hf h2 hs hcond
      | some b =>
          rw [hfk] at h
          dsimp only at h
          cases hrk : st.heap b with
          | none =>
              rw [hrk] at h
              dsimp only at h
              exact emitList_write scratch st k₁ k₂ p out buf outF h a a2 r r2 data
                hfp hrp he hc ha hf h2 hs hcond
          | some s =>
              rw [hrk] at h
              dsimp only at h
              cases her : emitRecord scratch st.heap out buf s with
              | none =>
                  rw [her] at h
                  injection h with h1 h2
                  cases h2
              | some outbuf =>
                  rw [her] at h
                  obtain ⟨out1, buf1⟩ := outbuf
                  dsimp only at h
                  by_cases hbe : buf1.isEmpty = true
                  · rw [if_pos hbe] at h
                    exact emitList_write scratch st k₁ k₂ p out1 buf1 outF h a a2 r r2 data
                      hfp hrp he hc ha hf h2 hs hcond
                  · rw [if_neg hbe] at h
                    injection h with h1 h2
                    cases h2

theorem fileRels_append :
    ∀ (l₁ l₂ : List WalkEntry), fileRels (l₁ ++ l₂) = fileRels l₁ ++ fileRels l₂
  | [], l₂ => rfl
  | WalkEntry.dir d o :: rest, l₂ => by
      show fileRels (rest ++ l₂) = fileRels rest ++ fileRels l₂
      exact fileRels_append rest l₂
  | WalkEntry.file rel c :: rest, l₂ => by
      show rel :: fileRels (rest ++ l₂) = rel :: fileRels rest ++ fileRels l₂
      rw [fileRels_append rest l₂]
      rfl

theorem file_mem_of_rel_mem :
    ∀ (entries : List WalkEntry) (rel : String),
      rel ∈ fileRels entries → ∃ c, WalkEntry.file rel c ∈ entries
  | [], rel, hm => by cases hm
  | WalkEntry.dir d o :: rest, rel, hm => by
      obtain ⟨c, hc⟩ := file_mem_of_rel_mem rest rel hm
      exact ⟨c, List.mem_cons_of_mem _ hc⟩
  | WalkEntry.file rel2 c2 :: rest, rel, hm => by
      rcases List.mem_cons.mp hm with hc | hc
      · exact ⟨c2, by rw [hc] ; exact List.mem_cons_self _ _⟩
      · obtain ⟨c, hcc⟩ := file_mem_of_rel_mem rest rel hc
        exact ⟨c, List.mem_cons_of_mem _ hcc⟩

theorem upd_upd_comm {α β : Type} [DecidableEq α] (f : α → Option β) {k k2 : α}
    (v v2 : β) (hne : k ≠ k2) :
    upd (upd f k v) k2 v2 = upd (upd f k2 v2) k v := by
  funext a
  by_cases h1 : a = k2
  · subst h1
    simp [upd, Ne.symm hne]
  · by_cases h2 : a = k <;> simp [upd, h1, h2, hne]

/-- During the walk, the resolution pointers of all records only ever
point at the discovered-file or source records of walked paths, so never
at those of a path that is not walked. -/
def fromOK (rel : String) (st : Reg) : Prop :=
  ∀ a r, st.heap a = some r → ∀ a2, r.fromIdx = some a2 →
    ∃ q, q ≠ rel ∧ (a2 = Addr.disc q ∨ a2 = Addr.src q)

theorem registerExpected_from_none {st : Reg} {i : Nat} {p : String}
    (h : ∀ a r, st.heap a = some r → r.fromIdx = none) :
    ∀ a r, (registerExpected st i p).heap a = some r → r.fromIdx = none := by
  intro a r hr
  cases hb : st.byBase (basenameOf p) with
  | none =>
      rw [registerExpected_none_eq hb] at hr
      dsimp only at hr
      by_cases ha : a = Addr.exp i
      · rw [ha, upd_same] at hr
        injection hr with h2
        rw [← h2]
        rfl
      · rw [upd_other st.heap _ ha] at hr
        exact h a r hr
  | some c =>
      rw [registerExpected_some_eq hb] at hr
      dsimp only at hr
      by_cases hc : a = c
      · rw [hc, hmod_same] at hr
        cases hx : hmod (upd st.heap (Addr.exp i) (expInfo p)) (Addr.exp i)
            (fun r => { r with unique := false }) c with
        | none => rw [hx] at hr ; cases hr
        | some r0 =>
            rw [hx] at hr
            injection hr with h2
            have hr0 : r0.fromIdx = none := by
              by_cases hce : c = Addr.exp i
              · rw [hce, hmod_same] at hx
                rw [upd_same] at hx
                injection hx with h3
                rw [← h3]
                rfl
              · rw [hmod_other _ _ hce] at hx
                by_cases hce2 : c = Addr.exp i
                · exact absurd hce2 hce
                · rw [upd_other st.heap _ hce2] at hx
                  exact h c r0 hx
            rw [← h2]
            show r0.fromIdx = none
            exact hr0
      · rw [hmod_other _ _ hc] at hr
        by_cases he : a = Addr.exp i
        · rw [he, hmod_same, upd_same] at hr
          injection hr with h2
          rw [← h2]
          rfl
        · rw [hmod_other _ _ he, upd_other st.heap _ he] at hr
          exact h a r hr

theorem registerList_from_none :
    ∀ (l : List String) (st : Reg) (i : Nat),
      (∀ a r, st.heap a = some r → r.fromIdx = none) →
      ∀ a r, (registerList st i l).heap a = some r → r.fromIdx = none
  | [], st, i, h => h
  | p :: rest, st, i, h =>
      registerList_from_none rest (registerExpected st i p) (i + 1)
        (registerExpected_from_none h)

theorem buildReg_from_none (expected : List String) :
    ∀ a r, (buildReg expected).heap a = some r → r.fromIdx = none :=
  registerList_from_none expected emptyReg 0 (fun a r hr => by cases hr)

theorem fromOK_buildReg (rel : String) (expected : List String) :
    fromOK rel (buildReg expected) := by
  intro a r hr a2 h2
  rw [buildReg_from_none expected a r hr] at h2
  cases h2

theorem walkList_files_none :
    ∀ (entries : List WalkEntry) (st : Reg) {rel : String},
      st.files rel = none → rel ∉ fileRels entries →
      ((walkList st entries).1).files rel = none
  | [], st, rel, h, hn => h
  | e :: rest, st, rel, h, hn => by
      unfold walkList
      cases hs : walkStep st e with
      | none => exact h
      | some st2 =>
          have hnrest : rel ∉ fileRels rest := by
            intro hc
            apply hn
            cases e with
            | dir d o => simpa [fileRels] using hc
            | file rel2 c =>
                simp only [fileRels, List.mem_cons]
                exact Or.inr hc
          have hstep : st2.files rel = none := by
            cases e with
            | dir d o =>
                simp only [walkStep] at hs
                by_cases ho : o = MkdirOutcome.failMk
                · rw [if_pos ho] at hs
                  cases hs
                · rw [if_neg ho] at hs
                  injection hs with h2
                  rw [← h2]
                  exact h
            | file rel2 c =>
                have hne : rel ≠ rel2 := by
                  intro hc
                  rw [hc] at hn
                  exact hn (by simp [fileRels])
                simp only [walkStep] at hs
                by_cases hsf : hasSuffix rel2 ".go" = true
                · rw [if_pos hsf] at hs
                  injection hs with h2
                  rw [← h2]
                  rw [walkFileStep_files_other rel2 hne]
                  exact h
                · rw [if_neg hsf] at hs
                  injection hs with h2
                  rw [← h2]
                  exact h
          exact walkList_files_none rest st2 hstep hnrest

theorem scratchOf_agree :
    ∀ (pre post : List WalkEntry) (rel content q : String), q ≠ tmpPrefix ++ rel →
      scratchOf (pre ++ WalkEntry.file rel content :: post) q = scratchOf (pre ++ post) q
  | [], post, rel, content, q, hq => by
      show (if q = tmpPrefix ++ rel then some content else scratchOf post q) =
        scratchOf post q
      rw [if_neg hq]
  | WalkEntry.dir d o :: pre, post, rel, content, q, hq =>
      scratchOf_agree pre post rel content q hq
  | WalkEntry.file rel2 c2 :: pre, post, rel, content, q, hq => by
      show (if q = tmpPrefix ++ rel2 then some c2
          else scratchOf (pre ++ WalkEntry.file rel content :: post) q) =
        (if q = tmpPrefix ++ rel2 then some c2 else scratchOf (pre ++ post) q)
      by_cases h2 : q = tmpPrefix ++ rel2
      · rw [if_pos h2, if_pos h2]
      · rw [if_neg h2, if_neg h2]
        exact scratchOf_agree pre post rel content q hq

theorem upd_cases {α β : Type} [DecidableEq α] {f : α → Option β} {k a : α} {v : β}
    {r : β} (h : upd f k v a = some r) : (a = k ∧ r = v) ∨ (a ≠ k ∧ f a = some r) := by
  by_cases ha : a = k
  · rw [ha, upd_same] at h
    injection h with h2
    exact Or.inl ⟨ha, h2.symm⟩
  · rw [upd_other f _ ha] at h
    exact Or.inr ⟨ha, h⟩

theorem hmod_cases {H : Addr → Option GenFileInfo} {k a : Addr}
    {f : GenFileInfo → GenFileInfo} {r : GenFileInfo} (h : hmod H k f a = some r) :
    (a = k ∧ ∃ r0, H k = some r0 ∧ r = f r0) ∨ (a ≠ k ∧ H a = some r) := by
  by_cases ha : a = k
  · rw [ha, hmod_same] at h
    cases hx : H k with
    | none => rw [hx] at h ; cases h
    | some r0 =>
        rw [hx] at h
        dsimp only [Option.map] at h
        injection h with h2
        exact Or.inl ⟨ha, r0, rfl, h2.symm⟩
  · rw [hmod_other _ _ ha] at h
    exact Or.inr ⟨ha, h⟩

theorem walkFileStep_fromOK {st : Reg} {rel rel2 : String} (h : fromOK rel st)
    (hne : rel2 ≠ rel) : fromOK rel (walkFileStep st rel2) := by
  cases hf : st.files rel2 with
  | some a0 =>
      rw [walkFileStep_exact_eq hf]
      intro a r hr a2 h2
      dsimp only at hr
      rcases hmod_cases hr with ⟨ha, r0, hr0, hrr⟩ | ⟨ha, hr2⟩
      · rw [hrr] at h2
        dsimp only at h2
        injection h2 with h3
        exact ⟨rel2, hne, Or.inr h3.symm⟩
      · rcases upd_cases hr2 with ⟨hsrc, hrv⟩ | ⟨hsrc, hold⟩
        · rw [hrv] at h2
          cases h2
        · exact h a r hold a2 h2
  | none =>
      rw [walkFileStep_disc_eq hf]
      have hst1 : fromOK rel (discState st rel2) := by
        intro a r hr a2 h2
        rcases upd_cases hr with ⟨hd, hrv⟩ | ⟨hd, hold⟩
        · rw [hrv] at h2
          cases h2
        · exact h a r hold a2 h2
      cases hbb : (discState st rel2).byBase (basenameOf rel2) with
      | none => exact hst1
      | some c =>
          dsimp only
          cases hheap : (discState st rel2).heap c with
          | none => exact hst1
          | some copyTo =>
              dsimp only
              by_cases hcu : copyTo.unique = false
              · rw [if_pos hcu]
                exact hst1
              · rw [if_neg hcu]
                cases hfrom : copyTo.fromIdx with
                | some x =>
                    intro a r hr a2 h2
                    dsimp only at hr
                    rcases hmod_cases hr with ⟨hd, r0, hr0, hrr⟩ | ⟨hd, hr2⟩
                    · rcases hmod_cases hr0 with ⟨hc2, r1, hr1, hrr1⟩ | ⟨hc2, hr3⟩
                      · rw [hrr, hrr1] at h2
                        dsimp only at h2
                        exact hst1 c r1 hr1 a2 h2
                      · rw [hrr] at h2
                        dsimp only at h2
                        exact hst1 _ r0 hr3 a2 h2
                    · rcases hmod_cases hr2 with ⟨hc2, r1, hr1, hrr1⟩ | ⟨hc2, hr3⟩
                      · rw [hrr1] at h2
                        dsimp only at h2
                        exact hst1 c r1 hr1 a2 h2
                      · exact hst1 a r hr3 a2 h2
                | none =>
                    intro a r hr a2 h2
                    dsimp only at hr
                    rcases hmod_cases hr with ⟨hd, r0, hr0, hrr⟩ | ⟨hd, hr2⟩
                    · rcases hmod_cases hr0 with ⟨hc2, r1, hr1, hrr1⟩ | ⟨hc2, hr3⟩
                      · rw [hrr, hrr1] at h2
                        dsimp only at h2
                        injection h2 with h3
                        exact ⟨rel2, hne, Or.inl h3.symm⟩
                      · rw [hrr] at h2
                        dsimp only at h2
                        exact hst1 _ r0 hr3 a2 h2
                    · rcases hmod_cases hr2 with ⟨hc2, r1, hr1, hrr1⟩ | ⟨hc2, hr3⟩
                      · rw [hrr1] at h2
                        dsimp only at h2
                        injection h2 with h3
                        exact ⟨rel2, hne, Or.inl h3.symm⟩
                      · exact hst1 a r hr3 a2 h2

theorem walkStep_fromOK {st st2 : Reg} {rel : String} (h : fromOK rel st)
    {e : WalkEntry} (hne : ∀ c, e ≠ WalkEntry.file rel c)
    (hs : walkStep st e = some st2) : fromOK rel st2 := by
  cases e with
  | dir d o =>
      simp only [walkStep] at hs
      by_cases ho : o = MkdirOutcome.failMk
      · rw [if_pos ho] at hs
        cases hs
      · rw [if_neg ho] at hs
        injection hs with h2
        rw [← h2]
        exact h
  | file rel2 c =>
      have hne2 : rel2 ≠ rel := by
        intro hc
        exact hne c (by rw [hc])
      simp only [walkStep] at hs
      by_cases hsf : hasSuffix rel2 ".go" = true
      · rw [if_pos hsf] at hs
        injection hs with h2
        rw [← h2]
        exact walkFileStep_fromOK h hne2
      · rw [if_neg hsf] at hs
        injection hs with h2
        rw [← h2]
        exact h

theorem walkList_fromOK :
    ∀ (entries : List WalkEntry) (st : Reg) {rel : String}, fromOK rel st →
      rel ∉ fileRels entries → fromOK rel (walkList st entries).1
  | [], st, rel, h, hn => h
  | e :: rest, st, rel, h, hn => by
      unfold walkList
      cases hs : walkStep st e with
      | none => exact h
      | some st2 =>
          have hnrest : rel ∉ fileRels rest := by
            intro hc
            apply hn
            cases e with
            | dir d o => simpa [fileRels] using hc
            | file rel2 c =>
                simp only [fileRels, List.mem_cons]
                exact Or.inr hc
          have hnee : ∀ c, e ≠ WalkEntry.file rel c := by
            intro c hc
            rw [hc] at hn
            exact hn (by simp [fileRels])
          exact walkList_fromOK rest st2 (walkStep_fromOK h hnee hs) hnrest

theorem wfs_nobase {st : Reg} {rel : String} (hf : st.files rel = none)
    (hb : st.byBase (basenameOf rel) = none) :
    walkFileStep st rel = discState st rel := by
  unfold walkFileStep
  dsimp only
  rw [hf, hb]
  rfl

theorem wfs_dangling {st : Reg} {rel : String} {c : Addr} (hf : st.files rel = none)
    (hb : st.byBase (basenameOf rel) = some c)
    (hc : upd st.heap (Addr.disc rel) (discInfo rel) c = none) :
    walkFileStep st rel = discState st rel := by
  unfold walkFileStep
  dsimp only
  rw [hf, hb]
  dsimp only
  rw [hc]
  rfl

theorem wfs_nonunique {st : Reg} {rel : String} {c : Addr} {copyTo : GenFileInfo}
    (hf : st.files rel = none) (hb : st.byBase (basenameOf rel) = some c)
    (hc : upd st.heap (Addr.disc rel) (discInfo rel) c = some copyTo)
    (hu : copyTo.unique = false) :
    walkFileStep st rel = discState st rel := by
  unfold walkFileStep
  dsimp only
  rw [hf, hb]
  dsimp only
  rw [hc]
  dsimp only
  rw [if_pos hu]
  rfl

theorem wfs_amb {st : Reg} {rel : String} {c : Addr} {copyTo : GenFileInfo} {x : Addr}
    (hf : st.files rel = none) (hb : st.byBase (basenameOf rel) = some c)
    (hc : upd st.heap (Addr.disc rel) (discInfo rel) c = some copyTo)
    (hu : ¬ copyTo.unique = false) (hx : copyTo.fromIdx = some x) :
    walkFileStep st rel =
      { discState st rel with
        heap := hmod (hmod (discState st rel).heap c (fun r => { r with ambiguious := true })) (Addr.disc rel) (fun r => { r with ambiguious := true }) } := by
  unfold walkFileStep
  dsimp only
  rw [hf, hb]
  dsimp only
  rw [hc]
  dsimp only
  rw [if_neg hu]
  rw [hx]
  rfl

theorem wfs_bind {st : Reg} {rel : String} {c : Addr} {copyTo : GenFileInfo}
    (hf : st.files rel = none) (hb : st.byBase (basenameOf rel) = some c)
    (hc : upd st.heap (Addr.disc rel) (discInfo rel) c = some copyTo)
    (hu : ¬ copyTo.unique = false) (hx : copyTo.fromIdx = none) :
    walkFileStep st rel =
      { discState st rel with
        heap := hmod (hmod (discState st rel).heap c (fun r => { r with fromIdx := some (Addr.disc rel), created := true })) (Addr.disc rel) (fun r => { r with expected := true }) } := by
  unfold walkFileStep
  dsimp only
  rw [hf, hb]
  dsimp only
  rw [hc]
  dsimp only
  rw [if_neg hu]
  rw [hx]
  rfl

/-- Simulation relation between the run without the inert discovered file
`rel` (state `stO`) and the run with it (state `stA`): the two states
differ exactly by the inert record, its `files` binding, and its key. -/
structure ISim (rel : String) (stO stA : Reg) : Prop where
  heap_eq : stA.heap = upd stO.heap (Addr.disc rel) (discInfo rel)
  files_eq : stA.files = upd stO.files rel (Addr.disc rel)
  bb_eq : stA.byBase = stO.byBase
  keys_eq : ∃ k₁ k₂, stO.fileKeys = k₁ ++ k₂ ∧ stA.fileKeys = k₁ ++ rel :: k₂
  files_none : stO.files rel = none

theorem isim_fileStep {expected : List String} {reg stO stA : Reg} (inv : RegInv expected reg)
    (w : WInv reg stO) {rel rel2 : String} (sim : ISim rel stO stA) (hne : rel2 ≠ rel) :
    ISim rel (walkFileStep stO rel2) (walkFileStep stA rel2) := by
  have hfa : stA.files rel2 = stO.files rel2 := by
    rw [sim.files_eq, upd_other stO.files _ hne]
  cases hf : stO.files rel2 with
  | some a0 =>
      have ha0 : a0 ≠ Addr.disc rel := by
        rcases w.files_new rel2 a0 hf with hreg | hdisc
        · obtain ⟨i, hi, _⟩ := inv.files_exp rel2 a0 hreg
          rw [hi]
          intro hc
          cases hc
        · rw [hdisc]
          intro hc
          injection hc with h2
          exact hne h2
      rw [walkFileStep_exact_eq hf, walkFileStep_exact_eq (by rw [hfa] ; exact hf)]
      refine ⟨?_, sim.files_eq, sim.bb_eq, sim.keys_eq, sim.files_none⟩
      dsimp only
      rw [sim.heap_eq]
      rw [upd_upd_comm stO.heap _ _ (by intro hc ; cases hc)]
      rw [hmod_upd_comm _ _ _ (fun hc => ha0 hc.symm)]
  | none =>
      have hfA : stA.files rel2 = none := by rw [hfa] ; exact hf
      have hsim1 : ISim rel (discState stO rel2) (discState stA rel2) := by
        refine ⟨?_, ?_, sim.bb_eq, ?_, ?_⟩
        · show upd stA.heap (Addr.disc rel2) (discInfo rel2) =
            upd (upd stO.heap (Addr.disc rel2) (discInfo rel2)) (Addr.disc rel) (discInfo rel)
          rw [sim.heap_eq]
          exact upd_upd_comm stO.heap _ _
            (by intro hc ; injection hc with h2 ; exact hne h2.symm)
        · show upd stA.files rel2 (Addr.disc rel2) =
            upd (upd stO.files rel2 (Addr.disc rel2)) rel (Addr.disc rel)
          rw [sim.files_eq]
          exact upd_upd_comm stO.files _ _ (Ne.symm hne)
        · obtain ⟨k₁, k₂, h1, h2⟩ := sim.keys_eq
          refine ⟨k₁, k₂ ++ [rel2], ?_, ?_⟩
          · show stO.fileKeys ++ [rel2] = k₁ ++ (k₂ ++ [rel2])
            rw [h1]
            simp
          · show stA.fileKeys ++ [rel2] = k₁ ++ rel :: (k₂ ++ [rel2])
            rw [h2]
            simp
        · show upd stO.files rel2 (Addr.disc rel2) rel = none
          rw [upd_other stO.files _ (Ne.symm hne)]
          exact sim.files_none
      have hbbA : stA.byBase (basenameOf rel2) = stO.byBase (basenameOf rel2) := by
        rw [sim.bb_eq]
      cases hbb : stO.byBase (basenameOf rel2) with
      | none =>
          rw [wfs_nobase hf hbb, wfs_nobase hfA (by rw [hbbA, hbb])]
          exact hsim1
      | some c =>
          have hcexp : ∃ j, c = Addr.exp j := by
            have hbbst := hbb
            rw [w.byBase_eq] at hbbst
            obtain ⟨j, hj, _⟩ := inv.byBase_exp _ c hbbst
            exact ⟨j, hj⟩
          obtain ⟨j, hj⟩ := hcexp
          have hcneD : c ≠ Addr.disc rel := by
            rw [hj]
            intro hc
            cases hc
          have hcne2 : c ≠ Addr.disc rel2 := by
            rw [hj]
            intro hc
            cases hc
          have hheq : upd stA.heap (Addr.disc rel2) (discInfo rel2) c =
              upd stO.heap (Addr.disc rel2) (discInfo rel2) c := by
            rw [upd_other stA.heap _ hcne2, upd_other stO.heap _ hcne2,
              sim.heap_eq, upd_other stO.heap _ hcneD]
          cases hcc : upd stO.heap (Addr.disc rel2) (discInfo rel2) c with
          | none =>
              rw [wfs_dangling hf hbb hcc,
                wfs_dangling hfA (by rw [hbbA, hbb]) (by rw [hheq, hcc])]
              exact hsim1
          | some copyTo =>
              by_cases hcu : copyTo.unique = false
              · rw [wfs_nonunique hf hbb hcc hcu,
                  wfs_nonunique hfA (by rw [hbbA, hbb]) (by rw [hheq, hcc]) hcu]
                exact hsim1
              · cases hfrom : copyTo.fromIdx with
                | some x =>
                    rw [wfs_amb hf hbb hcc hcu hfrom,
                      wfs_amb hfA (by rw [hbbA, hbb]) (by rw [hheq, hcc]) hcu hfrom]
                    refine ⟨?_, hsim1.files_eq, hsim1.bb_eq, hsim1.keys_eq, hsim1.files_none⟩
                    dsimp only
                    rw [hsim1.heap_eq]
                    rw [hmod_upd_comm _ _ _ (fun hcx => hcneD hcx.symm)]
                    rw [hmod_upd_comm _ _ _
                      (by intro hcx ; injection hcx with h2 ; exact hne h2.symm)]
                | none =>
                    rw [wfs_bind hf hbb hcc hcu hfrom,
                      wfs_bind hfA (by rw [hbbA, hbb]) (by rw [hheq, hcc]) hcu hfrom]
                    refine ⟨?_, hsim1.files_eq, hsim1.bb_eq, hsim1.keys_eq, hsim1.files_none⟩
                    dsimp only
                    rw [hsim1.heap_eq]
                    rw [hmod_upd_comm _ _ _ (fun hcx => hcneD hcx.symm)]
                    rw [hmod_upd_comm _ _ _
                      (by intro hcx ; injection hcx with h2 ; exact hne h2.symm)]

theorem isim_walk {expected : List String} {reg : Reg} (inv : RegInv expected reg) :
    ∀ (entries : List WalkEntry) (stO stA : Reg), WInv reg stO → ISim rel stO stA →
      rel ∉ fileRels entries →
      ISim rel (walkList stO entries).1 (walkList stA entries).1
  | [], stO, stA, w, sim, hn => sim
  | e :: rest, stO, stA, w, sim, hn => by
      have hnrest : rel ∉ fileRels rest := by
        intro hc
        apply hn
        cases e with
        | dir d o => simpa [fileRels] using hc
        | file rel2 c =>
            simp only [fileRels, List.mem_cons]
            exact Or.inr hc
      rw [walkList_cons, walkList_cons]
      cases e with
      | dir d o =>
          by_cases ho : o = MkdirOutcome.failMk
          · rw [show walkStep stO (WalkEntry.dir d o) = none from by
              simp only [walkStep, if_pos ho]]
            rw [show walkStep stA (WalkEntry.dir d o) = none from by
              simp only [walkStep, if_pos ho]]
            exact sim
          · rw [show walkStep stO (WalkEntry.dir d o) = some stO from by
              simp only [walkStep, if_neg ho]]
            rw [show walkStep stA (WalkEntry.dir d o) = some stA from by
              simp only [walkStep, if_neg ho]]
            exact isim_walk inv rest stO stA w sim hnrest
      | file rel2 c =>
          have hne2 : rel2 ≠ rel := by
            intro hc
            rw [hc] at hn
            exact hn (by simp [fileRels])
          by_cases hsf : hasSuffix rel2 ".go" = true
          · rw [show walkStep stO (WalkEntry.file rel2 c) =
              some (walkFileStep stO rel2) from by simp only [walkStep, if_pos hsf]]
            rw [show walkStep stA (WalkEntry.file rel2 c) =
              some (walkFileStep stA rel2) from by simp only [walkStep, if_pos hsf]]
            exact isim_walk inv rest _ _
              (walkStep_winv inv w (by
                show walkStep stO (WalkEntry.file rel2 c) = some (walkFileStep stO rel2)
                simp only [walkStep, if_pos hsf]))
              (isim_fileStep inv w sim hne2) hnrest
          · rw [show walkStep stO (WalkEntry.file rel2 c) = some stO from by
              simp only [walkStep, if_neg hsf]]
            rw [show walkStep stA (WalkEntry.file rel2 c) = some stA from by
              simp only [walkStep, if_neg hsf]]
            exact isim_walk inv rest stO stA w sim hnrest

theorem emitList_cons (scr : String → Option String) (st : Reg) (k : String)
    (rest : List String) (out : List (String × String)) (buf : List String) :
    emitList scr st (k :: rest) out buf =
      (match st.files k with
       | none => emitList scr st rest out buf
       | some a =>
          match st.heap a with
          | none => emitList scr st rest out buf
          | some r =>
              match emitRecord scr st.heap out buf r with
              | none => (out, some (.readFail r.path))
              | some (out1, buf1) =>
                  if buf1.isEmpty then emitList scr st rest out1 buf1
                  else (out1, some (.ambiguous buf1))) := rfl

theorem emitRecord_agree {stO stA : Reg} {rel : String} {scrO scrA : String → Option String}
    (hheap : ∀ a, a ≠ Addr.disc rel → stA.heap a = stO.heap a)
    (out : List (String × String)) (buf : List String) (r : GenFileInfo)
    (hr : ∀ a2, r.fromIdx = some a2 → a2 ≠ Addr.disc rel ∧
      ∀ r2, stO.heap a2 = some r2 → scrA r2.path = scrO r2.path) :
    emitRecord scrA stA.heap out buf r = emitRecord scrO stO.heap out buf r := by
  unfold emitRecord
  by_cases h1 : (r.expected && !r.created) = true
  · rw [if_pos h1, if_pos h1]
  · rw [if_neg h1, if_neg h1]
    by_cases h2 : (r.expected && r.ambiguious) = true
    · rw [if_pos h2, if_pos h2]
    · rw [if_neg h2, if_neg h2]
      cases hfrom : r.fromIdx with
      | none => rfl
      | some a2 =>
          dsimp only
          obtain ⟨hne, hsc⟩ := hr a2 hfrom
          rw [hheap a2 hne]
          cases hsr : stO.heap a2 with
          | none => rfl
          | some srcRec =>
              dsimp only
              rw [hsc srcRec hsr]

theorem emitList_agree {stO stA : Reg} {rel : String} {scrO scrA : String → Option String}
    (hheap : ∀ a, a ≠ Addr.disc rel → stA.heap a = stO.heap a)
    (hnd : ∀ p a, stO.files p = some a → a ≠ Addr.disc rel)
    (hfr : ∀ a r, stO.heap a = some r → ∀ a2, r.fromIdx = some a2 →
      a2 ≠ Addr.disc rel ∧ ∀ r2, stO.heap a2 = some r2 → scrA r2.path = scrO r2.path) :
    ∀ (ks : List String) (out : List (String × String)) (buf : List String),
      (∀ p, p ∈ ks → stA.files p = stO.files p) →
      emitList scrA stA ks out buf = emitList scrO stO ks out buf
  | [], out, buf, hks => rfl
  | k :: rest, out, buf, hks => by
      have hfk : stA.files k = stO.files k := hks k (List.mem_cons_self k rest)
      have hrest : ∀ p, p ∈ rest → stA.files p = stO.files p :=
        fun p hp => hks p (List.mem_cons_of_mem k hp)
      rw [emitList_cons scrA stA k rest out buf, emitList_cons scrO stO k rest out buf]
      rw [hfk]
      cases hf : stO.files k with
      | none => exact emitList_agree hheap hnd hfr rest out buf hrest
      | some a =>
          dsimp only
          rw [hheap a (hnd k a hf)]
          cases hh : stO.heap a with
          | none => exact emitList_agree hheap hnd hfr rest out buf hrest
          | some r =>
              dsimp only
              rw [emitRecord_agree hheap out buf r (hfr a r hh)]
              cases her : emitRecord scrO stO.heap out buf r with
              | none => rfl
              | some ob =>
                  obtain ⟨out1, buf1⟩ := ob
                  dsimp only
                  by_cases hbe : buf1.isEmpty = true
                  · rw [if_pos hbe, if_pos hbe]
                    exact emitList_agree hheap hnd hfr rest out1 buf1 hrest
                  · rw [if_neg hbe, if_neg hbe]

theorem emitList_skip {stO stA : Reg} {rel : String} {scrO scrA : String → Option String}
    (hheap : ∀ a, a ≠ Addr.disc rel → stA.heap a = stO.heap a)
    (hfrel : stA.files rel = some (Addr.disc rel))
    (hhrel : stA.heap (Addr.disc rel) = some (discInfo rel))
    (hnd : ∀ p a, stO.files p = some a → a ≠ Addr.disc rel)
    (hfr : ∀ a r, stO.heap a = some r → ∀ a2, r.fromIdx = some a2 →
      a2 ≠ Addr.disc rel ∧ ∀ r2, stO.heap a2 = some r2 → scrA r2.path = scrO r2.path) :
    ∀ (k₁ k₂ : List String) (out : List (String × String)),
      (∀ p, p ∈ k₁ → stA.files p = stO.files p) →
      (∀ p, p ∈ k₂ → stA.files p = stO.files p) →
      emitList scrA stA (k₁ ++ rel :: k₂) out [] = emitList scrO stO (k₁ ++ k₂) out []
  | [], k₂, out, h1, h2 => by
      rw [List.nil_append, List.nil_append]
      rw [emitList_cons scrA stA rel k₂ out []]
      rw [hfrel]
      dsimp only
      rw [hhrel]
      dsimp only
      rw [show emitRecord scrA stA.heap out [] (discInfo rel) = some (out, []) from rfl]
      dsimp only
      rw [if_pos (show ([] : List String).isEmpty = true from rfl)]
      exact emitList_agree hheap hnd hfr k₂ out [] h2
  | k :: k₁, k₂, out, h1, h2 => by
      rw [List.cons_append, List.cons_append]
      have hfk : stA.files k = stO.files k := h1 k (List.mem_cons_self k k₁)
      have hk1 : ∀ p, p ∈ k₁ → stA.files p = stO.files p :=
        fun p hp => h1 p (List.mem_cons_of_mem k hp)
      unfold emitList
      rw [hfk]
      cases hf : stO.files k with
      | none => exact emitList_skip hheap hfrel hhrel hnd hfr k₁ k₂ out hk1 h2
      | some a =>
          dsimp only
          rw [hheap a (hnd k a hf)]
          cases hh : stO.heap a with
          | none => exact emitList_skip hheap hfrel hhrel hnd hfr k₁ k₂ out hk1 h2
          | some r =>
              dsimp only
              rw [emitRecord_agree hheap out [] r (hfr a r hh)]
              cases her : emitRecord scrO stO.heap out [] r with
              | none => rfl
              | some ob =>
                  obtain ⟨out1, buf1⟩ := ob
                  dsimp only
                  cases buf1 with
                  | nil =>
                      rw [if_pos (show ([] : List String).isEmpty = true from rfl),
                        if_pos (show ([] : List String).isEmpty = true from rfl)]
                      exact emitList_skip hheap hfrel hhrel hnd hfr k₁ k₂ out1 hk1 h2
                  | cons b bs =>
                      rw [if_neg (by simp), if_neg (by simp)]

theorem files_no_disc {expected : List String} {reg st : Reg} (inv : RegInv expected reg)
    (w : WInv reg st) {rel : String} (hno : st.files rel ≠ some (Addr.disc rel)) :
    ∀ p a, st.files p = some a → a ≠ Addr.disc rel := by
  intro p a hpa hc
  rcases w.files_new p a hpa with hr | hd
  · obtain ⟨i, hi, _⟩ := inv.files_exp p a hr
    rw [hc] at hi
    cases hi
  · have h3 : p = rel := by
      rw [hd] at hc
      injection hc
    rw [h3] at hpa hd
    rw [hd] at hpa
    exact hno hpa

theorem fromOK_scr {reg st : Reg} (w : WInv reg st) {rel : String} (hok : fromOK rel st)
    (pre post : List WalkEntry) (content : String) :
    ∀ a r, st.heap a = some r → ∀ a2, r.fromIdx = some a2 →
      a2 ≠ Addr.disc rel ∧ ∀ r2, st.heap a2 = some r2 →
        scratchOf (pre ++ WalkEntry.file rel content :: post) r2.path =
        scratchOf (pre ++ post) r2.path := by
  intro a r hr a2 h2
  obtain ⟨q, hq, hqd⟩ := hok a r hr a2 h2
  constructor
  · rcases hqd with h | h
    · rw [h]
      intro hc
      injection hc with h3
      exact hq h3
    · rw [h]
      intro hc
      cases hc
  · intro r2 hr2
    have hpath : r2.path = tmpPrefix ++ q := by
      rcases hqd with h | h
      · rw [h] at hr2
        exact (w.heap_disc q r2 hr2).1
      · rw [h] at hr2
        exact (w.heap_src q r2 hr2).1
    refine scratchOf_agree pre post rel content r2.path ?_
    rw [hpath]
    intro hc
    exact hq (str_append_cancel hc)

/-- C9: a scratch-tree file whose relative path matches no walked-before or
walked-after occurrence of itself, whose path is not an expected path and
whose basename is not a unique expected basename (or which lacks the `.go`
suffix entirely), is inert: `run` over the walk with that file yields
exactly the same output tree and the same error as the run without it, so
the file is never written to a final output location, never causes a
failure, and leaves the outcome of every expected path unchanged. -/
theorem c9_unexpected_file_inert (expected : List String) (pre post : List WalkEntry)
    (rel content : String)
    (hpre : rel ∉ fileRels pre) (hpost : rel ∉ fileRels post)
    (hcase : hasSuffix rel ".go" = false ∨
      (rel ∉ expected ∧ countBase expected (basenameOf rel) ≠ 1)) :
    runCore expected (pre ++ WalkEntry.file rel content :: post) =
      runCore expected (pre ++ post) := by
  unfold runCore
  dsimp only
  set reg := buildReg expected
  have inv : RegInv expected reg := buildReg_inv expected
  have w0 : WInv reg reg := winv_init inv
  have hok0 : fromOK rel reg := fromOK_buildReg rel expected
  rw [walkList_append reg pre (WalkEntry.file rel content :: post),
    walkList_append reg pre post]
  by_cases hab : (walkList reg pre).2 = true
  · rw [if_pos hab, if_pos hab]
    have w : WInv reg (walkList reg pre).1 := walkList_winv inv pre reg w0
    have hok : fromOK rel (walkList reg pre).1 := walkList_fromOK pre reg hok0 hpre
    have hno : (walkList reg pre).1.files rel ≠ some (Addr.disc rel) := by
      cases hfr0 : reg.files rel with
      | none =>
          rw [walkList_files_none pre reg hfr0 hpre]
          intro hc
          cases hc
      | some ae =>
          obtain ⟨i, hi, _⟩ := inv.files_exp rel ae hfr0
          rw [w.files_mono rel ae hfr0]
          intro hc
          injection hc with h3
          rw [hi] at h3
          cases h3
    exact emitList_agree (fun a _ => rfl) (files_no_disc inv w hno)
      (fromOK_scr w hok pre post content) _ [] [] (fun p _ => rfl)
  · rw [if_neg hab, if_neg hab]
    have wpre : WInv reg (walkList reg pre).1 := walkList_winv inv pre reg w0
    have hokpre : fromOK rel (walkList reg pre).1 := walkList_fromOK pre reg hok0 hpre
    rw [walkList_cons]
    by_cases hsf : hasSuffix rel ".go" = true
    · have hcase2 : rel ∉ expected ∧ countBase expected (basenameOf rel) ≠ 1 := by
        rcases hcase with h | h
        · rw [hsf] at h
          cases h
        · exact h
      have hfrelreg : reg.files rel = none := by
        cases hfr0 : reg.files rel with
        | none => rfl
        | some ae =>
            exact absurd ((inv.files_dom rel).1 (by rw [hfr0] ; rfl)) hcase2.1
      have hfrelpre : (walkList reg pre).1.files rel = none :=
        walkList_files_none pre reg hfrelreg hpre
      rw [show walkStep (walkList reg pre).1 (WalkEntry.file rel content) =
          some (walkFileStep (walkList reg pre).1 rel) from by
        simp only [walkStep, if_pos hsf]]
      dsimp only
      have hstep : walkFileStep (walkList reg pre).1 rel =
          discState (walkList reg pre).1 rel := by
        cases hbb : (walkList reg pre).1.byBase (basenameOf rel) with
        | none => exact wfs_nobase hfrelpre hbb
        | some c =>
            have hbbreg : reg.byBase (basenameOf rel) = some c := by
              rw [← wpre.byBase_eq]
              exact hbb
            obtain ⟨r, hrc, hrb, _, _, _, _, huniq⟩ := inv.byBase_rec _ c hbbreg
            obtain ⟨j, hj, _⟩ := inv.byBase_exp _ c hbbreg
            have hcnt : 0 < countBase expected (basenameOf rel) :=
              (inv.byBase_dom _).1 (by rw [hbbreg] ; rfl)
            have hgt : ¬ countBase expected (basenameOf rel) ≤ 1 := by
              intro hle
              exact hcase2.2 (Nat.le_antisymm hle hcnt)
            have hru : r.unique = false := by
              cases hu : r.unique with
              | false => rfl
              | true => exact absurd (huniq.1 hu) hgt
            obtain ⟨r2, hr2, _, _, hr2u, _⟩ := wpre.heap_pres c r hrc
            have hcne : c ≠ Addr.disc rel := by
              rw [hj]
              intro hc
              cases hc
            have hcc : upd (walkList reg pre).1.heap (Addr.disc rel) (discInfo rel) c =
                some r2 := by
              rw [upd_other (walkList reg pre).1.heap _ hcne]
              exact hr2
            have hcu : r2.unique = false := by
              rw [hr2u]
              exact hru
            exact wfs_nonunique hfrelpre hbb hcc hcu
      rw [hstep]
      have sim0 : ISim rel (walkList reg pre).1 (discState (walkList reg pre).1 rel) :=
        ⟨rfl, rfl, rfl, ⟨(walkList reg pre).1.fileKeys, [], by simp, by simp [discState]⟩,
          hfrelpre⟩
      have sim := isim_walk inv post (walkList reg pre).1
        (discState (walkList reg pre).1 rel) wpre sim0 hpost
      have wO : WInv reg (walkList (walkList reg pre).1 post).1 :=
        walkList_winv inv post (walkList reg pre).1 wpre
      have hokO : fromOK rel (walkList (walkList reg pre).1 post).1 :=
        walkList_fromOK post (walkList reg pre).1 hokpre hpost
      obtain ⟨k₁, k₂, hk1, hk2⟩ := sim.keys_eq
      have hrelK : rel ∉ ((walkList (walkList reg pre).1 post).1).fileKeys := by
        intro hc
        have h5 := (wO.keys_files rel).1 hc
        rw [sim.files_none] at h5
        cases h5
      have hnoO : (walkList (walkList reg pre).1 post).1.files rel ≠
          some (Addr.disc rel) := by
        rw [sim.files_none]
        intro hc
        cases hc
      rw [hk1, hk2]
      refine emitList_skip ?_ ?_ ?_ (files_no_disc inv wO hnoO)
        (fromOK_scr wO hokO pre post content) k₁ k₂ [] ?_ ?_
      · intro a ha
        rw [sim.heap_eq, upd_other _ _ ha]
      · rw [sim.files_eq, upd_same]
      · rw [sim.heap_eq, upd_same]
      · intro p hp
        rw [sim.files_eq]
        refine upd_other _ _ ?_
        intro hc
        apply hrelK
        rw [hk1]
        exact List.mem_append_left k₂ (hc ▸ hp)
      · intro p hp
        rw [sim.files_eq]
        refine upd_other _ _ ?_
        intro hc
        apply hrelK
        rw [hk1]
        exact List.mem_append_right k₁ (hc ▸ hp)
    · rw [show walkStep (walkList reg pre).1 (WalkEntry.file rel content) =
          some ((walkList reg pre).1) from by simp only [walkStep, if_neg hsf]]
      dsimp only
      have wF : WInv reg (walkList (walkList reg pre).1 post).1 :=
        walkList_winv inv post (walkList reg pre).1 wpre
      have hokF : fromOK rel (walkList (walkList reg pre).1 post).1 :=
        walkList_fromOK post (walkList reg pre).1 hokpre hpost
      have hnoF : (walkList (walkList reg pre).1 post).1.files rel ≠
          some (Addr.disc rel) := by
        cases hfr0 : reg.files rel with
        | none =>
            rw [walkList_files_none post (walkList reg pre).1
              (walkList_files_none pre reg hfr0 hpre) hpost]
            intro hc
            cases hc
        | some ae =>
            obtain ⟨i, hi, _⟩ := inv.files_exp rel ae hfr0
            rw [wF.files_mono rel ae hfr0]
            intro hc
            injection hc with h3
            rw [hi] at h3
            cases h3
      exact emitList_agree (fun a _ => rfl) (files_no_disc inv wF hnoF)
        (fromOK_scr wF hokF pre post content) _ [] [] (fun p _ => rfl)

/-- Witness for C9 at a concrete input: the unexpected scratch file
`g/extra.go` (matching no expected path and no unique expected basename)
leaves the run over expected `["out/a.go"]` completely unchanged. -/
theorem c9_unexpected_file_inert_witness :
    (("g/extra.go" : String) ∉ fileRels [WalkEntry.dir "g" MkdirOutcome.okMk]) ∧
    (("g/extra.go" : String) ∉ fileRels [WalkEntry.file "g/a.go" "A"]) ∧
    (hasSuffix "g/extra.go" ".go" = false ∨
      (("g/extra.go" : String) ∉ ["out/a.go"] ∧
        countBase ["out/a.go"] (basenameOf "g/extra.go") ≠ 1)) ∧
    runCore ["out/a.go"]
        ([WalkEntry.dir "g" MkdirOutcome.okMk] ++
          WalkEntry.file "g/extra.go" "X" :: [WalkEntry.file "g/a.go" "A"]) =
      runCore ["out/a.go"]
        ([WalkEntry.dir "g" MkdirOutcome.okMk] ++ [WalkEntry.file "g/a.go" "A"]) :=
  ⟨by decide, by decide, by decide,
    c9_unexpected_file_inert ["out/a.go"] [WalkEntry.dir "g" MkdirOutcome.okMk]
      [WalkEntry.file "g/a.go" "A"] "g/extra.go" "X" (by decide) (by decide) (by decide)⟩

theorem walkFileStep_mono {expected : List String} {reg st : Reg} (inv : RegInv expected reg)
    (w : WInv reg st) {p : String} {a : Addr} (hpa : reg.files p = some a)
    {rel : String} (hne : rel ≠ p) {r : GenFileInfo} (hr : st.heap a = some r) :
    ∃ r2, (walkFileStep st rel).heap a = some r2 ∧
      (r.created = true → r2.created = true) ∧
      (∀ j, r.fromIdx = some j → r2.fromIdx = some j) ∧
      (r.ambiguious = true → r2.ambiguious = true) := by
  obtain ⟨i, hexp⟩ := reg_addr_exp inv hpa
  have hsta : st.files p = some a := w.files_mono p a hpa
  have hnd : a ≠ Addr.disc rel := by
    rw [hexp]
    intro hc
    cases hc
  have hnsrc : a ≠ Addr.src rel := by
    rw [hexp]
    intro hc
    cases hc
  have hDa : upd st.heap (Addr.disc rel) (discInfo rel) a = some r := by
    rw [upd_other _ _ hnd]
    exact hr
  cases hf : st.files rel with
  | some a2 =>
      rw [walkFileStep_exact_eq hf]
      have hane : a ≠ a2 := files_addr_ne inv w hsta hf (fun hc => hne hc.symm)
      refine ⟨r, ?_, fun h => h, fun j h => h, fun h => h⟩
      dsimp only
      rw [hmod_other _ _ hane, upd_other st.heap _ hnsrc]
      exact hr
  | none =>
      cases hbb : st.byBase (basenameOf rel) with
      | none =>
          rw [wfs_nobase hf hbb]
          exact ⟨r, hDa, fun h => h, fun j h => h, fun h => h⟩
      | some c =>
          cases hcc : upd st.heap (Addr.disc rel) (discInfo rel) c with
          | none =>
              rw [wfs_dangling hf hbb hcc]
              exact ⟨r, hDa, fun h => h, fun j h => h, fun h => h⟩
          | some copyTo =>
              by_cases hcu : copyTo.unique = false
              · rw [wfs_nonunique hf hbb hcc hcu]
                exact ⟨r, hDa, fun h => h, fun j h => h, fun h => h⟩
              · cases hfrom : copyTo.fromIdx with
                | some x =>
                    rw [wfs_amb hf hbb hcc hcu hfrom]
                    by_cases hac : a = c
                    · have hcr : r = copyTo := by
                        rw [← hac] at hcc
                        rw [hDa] at hcc
                        injection hcc
                      refine ⟨{ r with ambiguious := true }, ?_,
                        fun h => h, fun j h => h, fun _ => rfl⟩
                      dsimp only
                      rw [hmod_other _ _ hnd, hac, hmod_same]
                      rw [show (discState st rel).heap c = some r from by
                        rw [← hac]
                        exact hDa]
                      rfl
                    · refine ⟨r, ?_, fun h => h, fun j h => h, fun h => h⟩
                      dsimp only
                      rw [hmod_other _ _ hnd, hmod_other _ _ hac]
                      exact hDa
                | none =>
                    rw [wfs_bind hf hbb hcc hcu hfrom]
                    by_cases hac : a = c
                    · have hcr : r = copyTo := by
                        rw [← hac] at hcc
                        rw [hDa] at hcc
                        injection hcc
                      refine ⟨{ r with fromIdx := some (Addr.disc rel), created := true },
                        ?_, fun _ => rfl, ?_, fun h => h⟩
                      · dsimp only
                        rw [hmod_other _ _ hnd, hac, hmod_same]
                        rw [show (discState st rel).heap c = some r from by
                          rw [← hac]
                          exact hDa]
                        rfl
                      · intro j hj
                        rw [hcr, hfrom] at hj
                        cases hj
                    · refine ⟨r, ?_, fun h => h, fun j h => h, fun h => h⟩
                      dsimp only
                      rw [hmod_other _ _ hnd, hmod_other _ _ hac]
                      exact hDa

theorem walkStep_mono {expected : List String} {reg st st2 : Reg} (inv : RegInv expected reg)
    (w : WInv reg st) {p : String} {a : Addr} (hpa : reg.files p = some a)
    {e : WalkEntry} (hne : ∀ rel content, e = WalkEntry.file rel content → rel ≠ p)
    (h : walkStep st e = some st2) {r : GenFileInfo} (hr : st.heap a = some r) :
    ∃ r2, st2.heap a = some r2 ∧
      (r.created = true → r2.created = true) ∧
      (∀ j, r.fromIdx = some j → r2.fromIdx = some j) ∧
      (r.ambiguious = true → r2.ambiguious = true) := by
  cases e with
  | dir d o =>
      simp only [walkStep] at h
      by_cases ho : o = MkdirOutcome.failMk
      · rw [if_pos ho] at h
        cases h
      · rw [if_neg ho] at h
        injection h with h2
        rw [← h2]
        exact ⟨r, hr, fun h => h, fun j h => h, fun h => h⟩
  | file rel content =>
      simp only [walkStep] at h
      by_cases hs : hasSuffix rel ".go" = true
      · rw [if_pos hs] at h
        injection h with h2
        rw [← h2]
        exact walkFileStep_mono inv w hpa (hne rel content rfl) hr
      · rw [if_neg hs] at h
        injection h with h2
        rw [← h2]
        exact ⟨r, hr, fun h => h, fun j h => h, fun h => h⟩

theorem walkList_mono {expected : List String} {reg : Reg} (inv : RegInv expected reg) :
    ∀ (entries : List WalkEntry) (st : Reg), WInv reg st →
      ∀ {p : String} {a : Addr} {r : GenFileInfo}, reg.files p = some a →
        st.heap a = some r → p ∉ fileRels entries →
        ∃ r2, ((walkList st entries).1).heap a = some r2 ∧
          (r.created = true → r2.created = true) ∧
          (∀ j, r.fromIdx = some j → r2.fromIdx = some j) ∧
          (r.ambiguious = true → r2.ambiguious = true)
  | [], st, w, p, a, r, hpa, hr, hnp => ⟨r, hr, fun h => h, fun j h => h, fun h => h⟩
  | e :: rest, st, w, p, a, r, hpa, hr, hnp => by
      have hnee : ∀ rel content, e = WalkEntry.file rel content → rel ≠ p := by
        intro rel content hc hcontra
        rw [hc, hcontra] at hnp
        exact hnp (by simp [fileRels])
      have hnprest : p ∉ fileRels rest := by
        intro hcontra
        apply hnp
        cases e with
        | dir d o => simpa [fileRels] using hcontra
        | file rel c =>
            simp only [fileRels, List.mem_cons]
            exact Or.inr hcontra
      unfold walkList
      cases h : walkStep st e with
      | none => exact ⟨r, hr, fun h => h, fun j h => h, fun h => h⟩
      | some st2 =>
          obtain ⟨r2, hr2, hc2, hf2, ha2⟩ := walkStep_mono inv w hpa hnee h hr
          obtain ⟨r3, hr3, hc3, hf3, ha3⟩ :=
            walkList_mono inv rest st2 (walkStep_winv inv w h) hpa hr2 hnprest
          exact ⟨r3, hr3, fun h => hc3 (hc2 h), fun j h => hf3 j (hf2 j h),
            fun h => ha3 (ha2 h)⟩

/-- C3 (amended): an exact-path match always leaves the expected record
resolved to the file at its own path — `from` is set to the exact-match
copy, overwriting any earlier basename-fallback binding, and is never
reassigned afterwards — and marks it created.  But the exact match does
not shield the record from basename matching: when no other walked
scratch file shares the record's basename, the record is never marked
ambiguous and, whenever the run returns no error, the expected path holds
exactly the bytes of the exact-match file; while a scratch `.go` file
sharing the record's basename (that basename being unique among the
expected paths) walked after the exact match finds the resolution pointer
already set and marks the record ambiguous.  (The hypothesis on
`tmpPrefix` reflects that the temporary directory and the output tree are
distinct in the real program.) -/
theorem c3_exact_match_amended (expected : List String) (pre post : List WalkEntry)
    (p content : String)
    (hmem : p ∈ expected)
    (hsuf : hasSuffix p ".go" = true)
    (hnodup : (fileRels (pre ++ WalkEntry.file p content :: post)).Nodup)
    (hnofail : ∀ d o, WalkEntry.dir d o ∈ pre ++ WalkEntry.file p content :: post →
      o ≠ MkdirOutcome.failMk)
    (hptmp : ∀ q, p ≠ tmpPrefix ++ q) :
    ∃ a r,
      ((walkList (buildReg expected) (pre ++ WalkEntry.file p content :: post)).1).files p =
        some a ∧
      ((walkList (buildReg expected) (pre ++ WalkEntry.file p content :: post)).1).heap a =
        some r ∧
      r.created = true ∧ r.fromIdx = some (Addr.src p) ∧ r.path = p ∧ r.expected = true ∧
      ((∀ rel c, WalkEntry.file rel c ∈ pre ++ WalkEntry.file p content :: post →
          rel ≠ p → basenameOf rel ≠ basenameOf p) →
        r.ambiguious = false ∧
        ((runCore expected (pre ++ WalkEntry.file p content :: post)).2 = none →
          (runCore expected (pre ++ WalkEntry.file p content :: post)).1.lookup p =
            some content)) ∧
      (∀ rel c, WalkEntry.file rel c ∈ post → basenameOf rel = basenameOf p →
        hasSuffix rel ".go" = true → countBase expected (basenameOf p) = 1 →
        r.ambiguious = true) := by
  have inv := buildReg_inv expected
  have hsome : ((buildReg expected).files p).isSome := (inv.files_dom p).mpr hmem
  cases ha : (buildReg expected).files p with
  | none => rw [ha] at hsome ; cases hsome
  | some a =>
      obtain ⟨r0, hr0, hpath0, hbase0, hexp0, hcr0, hfrom0, ham0, huniq0⟩ :=
        inv.files_rec p a ha
      obtain ⟨i, hiexp⟩ := reg_addr_exp inv ha
      have hrels : fileRels (pre ++ WalkEntry.file p content :: post) =
          fileRels pre ++ p :: fileRels post := by
        rw [fileRels_append]
        rfl
      have hnodup2 := hnodup
      rw [hrels] at hnodup2
      have hpnotpre : p ∉ fileRels pre := by
        rw [List.nodup_append] at hnodup2
        intro hc
        exact hnodup2.2.2 hc (List.mem_cons_self p _)
      have hpnotpost : p ∉ fileRels post := by
        rw [List.nodup_append] at hnodup2
        have := hnodup2.2.1
        rw [List.nodup_cons] at this
        exact this.1
      have w0 := winv_init inv
      have wpre := walkList_winv inv pre (buildReg expected) w0
      obtain ⟨rpre, hrpre, hrpre_base, hrpre_path, hrpre_uniq, hrpre_exp⟩ :=
        wpre.heap_pres a r0 hr0
      have hfpre : ((walkList (buildReg expected) pre).1).files p = some a :=
        wpre.files_mono p a ha
      have hnoab : (walkList (buildReg expected) pre).2 = false :=
        walkList_no_abort pre _ (fun d o hd =>
          hnofail d o (by rw [List.mem_append] ; exact Or.inl hd))
      have hstep : walkStep (walkList (buildReg expected) pre).1
          (WalkEntry.file p content) =
          some (walkFileStep (walkList (buildReg expected) pre).1 p) := by
        simp only [walkStep, if_pos hsuf]
      have hfinal : walkList (buildReg expected) (pre ++ WalkEntry.file p content :: post) =
          walkList (walkFileStep (walkList (buildReg expected) pre).1 p) post := by
        rw [walkList_append, if_neg (by rw [hnoab] ; simp), walkList_cons, hstep]
      have hans : a ≠ Addr.src p := by
        rw [hiexp]
        intro hc
        cases hc
      have hst2heap : (walkFileStep (walkList (buildReg expected) pre).1 p).heap a =
          some { rpre with created := true, fromIdx := some (Addr.src p) } := by
        rw [walkFileStep_exact_eq hfpre]
        dsimp only
        rw [hmod_same, upd_other _ _ hans, hrpre]
        rfl
      have hw2 : WInv (buildReg expected)
          (walkFileStep (walkList (buildReg expected) pre).1 p) :=
        walkStep_winv inv wpre hstep
      obtain ⟨rfin, hrfin, hfin_cr, hfin_from, hfin_amb⟩ :=
        walkList_mono inv post _ hw2 ha hst2heap hpnotpost
      have wfin : WInv (buildReg expected)
          (walkList (buildReg expected) (pre ++ WalkEntry.file p content :: post)).1 := by
        rw [hfinal]
        exact walkList_winv inv post _ hw2
      have hffin : ((walkList (buildReg expected)
          (pre ++ WalkEntry.file p content :: post)).1).files p = some a :=
        wfin.files_mono p a ha
      have hrfinF : ((walkList (buildReg expected)
          (pre ++ WalkEntry.file p content :: post)).1).heap a = some rfin := by
        rw [hfinal]
        exact hrfin
      obtain ⟨rfin2, hrfin2, _, hrfin2_path, _, hrfin2_exp⟩ := wfin.heap_pres a r0 hr0
      rw [hrfinF] at hrfin2
      injection hrfin2 with h9
      refine ⟨a, rfin, hffin, hrfinF, hfin_cr rfl, hfin_from _ rfl, ?_, ?_, ?_, ?_⟩
      · rw [h9, hrfin2_path, hpath0]
      · rw [h9, hrfin2_exp, hexp0]
      · -- no same-basename sharer anywhere: not ambiguous, and copied on success
        intro hnob
        have hcond_pre : ∀ rel, rel ∈ fileRels pre →
            rel ≠ p ∧ basenameOf rel ≠ basenameOf p := by
          intro rel hrel
          have hrelne : rel ≠ p := by
            intro hc
            rw [hc] at hrel
            exact hpnotpre hrel
          obtain ⟨c, hcmem⟩ := file_mem_of_rel_mem pre rel hrel
          exact ⟨hrelne, hnob rel c (by
            rw [List.mem_append]
            exact Or.inl hcmem) hrelne⟩
        have hrpre0 : ((walkList (buildReg expected) pre).1).heap a = some r0 :=
          walkList_frame inv pre _ w0 ha hr0 hcond_pre
        have hst2heap0 : (walkFileStep (walkList (buildReg expected) pre).1 p).heap a =
            some { r0 with created := true, fromIdx := some (Addr.src p) } := by
          rw [walkFileStep_exact_eq hfpre]
          dsimp only
          rw [hmod_same, upd_other _ _ hans, hrpre0]
          rfl
        have hst2src : (walkFileStep (walkList (buildReg expected) pre).1 p).heap
            (Addr.src p) = some (discInfo p) := by
          rw [walkFileStep_exact_eq hfpre]
          dsimp only
          rw [hmod_other _ _ (fun hc => hans hc.symm), upd_same]
        have hcond_post : ∀ rel, rel ∈ fileRels post →
            rel ≠ p ∧ basenameOf rel ≠ basenameOf p := by
          intro rel hrel
          have hrelne : rel ≠ p := by
            intro hc
            rw [hc] at hrel
            exact hpnotpost hrel
          obtain ⟨c, hcmem⟩ := file_mem_of_rel_mem post rel hrel
          exact ⟨hrelne, hnob rel c (by
            rw [List.mem_append]
            exact Or.inr (List.mem_cons_of_mem _ hcmem)) hrelne⟩
        have hrfin0 : ((walkList (buildReg expected)
            (pre ++ WalkEntry.file p content :: post)).1).heap a =
            some { r0 with created := true, fromIdx := some (Addr.src p) } := by
          rw [hfinal]
          exact walkList_frame inv post _ hw2 ha hst2heap0 hcond_post
        have hsrcfin : ((walkList (buildReg expected)
            (pre ++ WalkEntry.file p content :: post)).1).heap (Addr.src p) =
            some (discInfo p) := by
          rw [hfinal]
          exact walkList_src_pres inv post _ hw2 hst2src hpnotpost
        have hreq : rfin = { r0 with created := true, fromIdx := some (Addr.src p) } := by
          rw [hrfinF] at hrfin0
          injection hrfin0
        constructor
        · rw [hreq]
          dsimp only
          exact ham0
        · intro hnone
          have hruncore : runCore expected (pre ++ WalkEntry.file p content :: post) =
              emitList (scratchOf (pre ++ WalkEntry.file p content :: post))
                (walkList (buildReg expected) (pre ++ WalkEntry.file p content :: post)).1
                ((walkList (buildReg expected)
                  (pre ++ WalkEntry.file p content :: post)).1).fileKeys [] [] := rfl
          have hemit : emitList (scratchOf (pre ++ WalkEntry.file p content :: post))
              (walkList (buildReg expected) (pre ++ WalkEntry.file p content :: post)).1
              ((walkList (buildReg expected)
                (pre ++ WalkEntry.file p content :: post)).1).fileKeys [] [] =
              ((runCore expected (pre ++ WalkEntry.file p content :: post)).1, none) := by
            rw [← hruncore, ← hnone]
          have hpkeys : p ∈ ((walkList (buildReg expected)
              (pre ++ WalkEntry.file p content :: post)).1).fileKeys :=
            (wfin.keys_files p).mpr (by rw [hffin] ; rfl)
          obtain ⟨k₁, k₂, hkeys⟩ := List.append_of_mem hpkeys
          rw [hkeys] at hemit
          have hpnotk2 : p ∉ k₂ := by
            have hnd := wfin.keys_nodup
            rw [hkeys, List.nodup_append, List.nodup_cons] at hnd
            exact hnd.2.1.1
          have hscr : scratchOf (pre ++ WalkEntry.file p content :: post)
              (tmpPrefix ++ p) = some content :=
            scratchOf_mem _ p content (by
              rw [List.mem_append]
              exact Or.inr (List.mem_cons_self _ _)) hnodup
          have hcond : ∀ k ∈ k₂, ∀ b s,
              ((walkList (buildReg expected)
                (pre ++ WalkEntry.file p content :: post)).1).files k = some b →
              ((walkList (buildReg expected)
                (pre ++ WalkEntry.file p content :: post)).1).heap b = some s →
              s.path ≠ ({ r0 with created := true, fromIdx := some (Addr.src p) } : GenFileInfo).path := by
            intro k hk b s hfb hrb
            have hkne : k ≠ p := by
              intro hc
              rw [hc] at hk
              exact hpnotk2 hk
            have hpathp : ({ r0 with created := true, fromIdx := some (Addr.src p) } : GenFileInfo).path = p := by
              dsimp only
              exact hpath0
            rw [hpathp]
            rcases wfin.files_new k b hfb with hreg | hdisc
            · obtain ⟨rk, hrk, hrkpath, _⟩ := inv.files_rec k b hreg
              obtain ⟨s2, hs2, _, hs2path, _⟩ := wfin.heap_pres b rk hrk
              rw [hrb] at hs2
              injection hs2 with hs3
              rw [← hs3] at hs2path
              rw [hs2path, hrkpath]
              exact hkne
            · rw [hdisc] at hrb
              obtain ⟨hspath, _, _⟩ := wfin.heap_disc k s hrb
              rw [hspath]
              intro hc
              exact hptmp k hc.symm
          have := emitList_write
            (scratchOf (pre ++ WalkEntry.file p content :: post))
            (walkList (buildReg expected) (pre ++ WalkEntry.file p content :: post)).1
            k₁ k₂ p [] []
            (runCore expected (pre ++ WalkEntry.file p content :: post)).1 hemit
            a (Addr.src p) { r0 with created := true, fromIdx := some (Addr.src p) }
            (discInfo p) content hffin hrfin0
            (by dsimp only ; exact hexp0) rfl (by dsimp only ; exact ham0) rfl
            hsrcfin (by
              show scratchOf (pre ++ WalkEntry.file p content :: post)
                (discInfo p).path = some content
              exact hscr) hcond
          rw [show ({ r0 with created := true, fromIdx := some (Addr.src p) } : GenFileInfo).path = p from (by dsimp only ; exact hpath0)] at this
          exact this
      · -- a same-basename candidate walked after the exact match marks the record
        intro rel2 c2 hmem2 hbeq hsuf2 hcnt1
        have hrel2post : rel2 ∈ fileRels post := rel_mem_of_file_mem post rel2 c2 hmem2
        have hrel2nep : rel2 ≠ p := by
          intro hc
          rw [hc] at hrel2post
          exact hpnotpost hrel2post
        have hrel2nexp : rel2 ∉ expected := by
          intro hc
          have h2 := two_le_countBase hmem hc (fun hcc => hrel2nep hcc.symm) rfl hbeq
          rw [hcnt1] at h2
          omega
        have hr0uniq : r0.unique = true := huniq0.mpr (by rw [hcnt1])
        have hbpos : 0 < countBase expected (basenameOf p) := by
          rw [hcnt1]
          omega
        have habB0 : ∃ ab, (buildReg expected).byBase (basenameOf p) = some ab := by
          cases hq : (buildReg expected).byBase (basenameOf p) with
          | none =>
              have h3 := (inv.byBase_dom (basenameOf p)).mpr hbpos
              rw [hq] at h3
              cases h3
          | some ab => exact ⟨ab, rfl⟩
        obtain ⟨ab, habB⟩ := habB0
        obtain ⟨rb, hrbheap, hrbbase, _, _, _, _, _⟩ := inv.byBase_rec _ ab habB
        have hble : countBase expected (basenameOf p) ≤ 1 := by rw [hcnt1]
        have hfilesb : (buildReg expected).files rb.path = some ab :=
          inv.byBase_files _ ab rb habB hrbheap hble
        obtain ⟨rb2, hrb2heap, hrb2path, hrb2base, _, _, _, _, _⟩ :=
          inv.files_rec rb.path ab hfilesb
        rw [hrbheap] at hrb2heap
        injection hrb2heap with hrb2eq
        have hrbpathbase : basenameOf rb.path = basenameOf p := by
          rw [← hrb2base, ← hrb2eq, hrbbase]
        have hrbmem : rb.path ∈ expected := (inv.files_dom rb.path).mp (by
          rw [hfilesb]
          rfl)
        have hpeq : p = rb.path := by
          by_contra hne'
          have h2 := two_le_countBase hmem hrbmem hne' rfl hrbpathbase
          rw [hcnt1] at h2
          omega
        have haab : a = ab := by
          rw [← hpeq] at hfilesb
          rw [ha] at hfilesb
          injection hfilesb
        have habBa : (buildReg expected).byBase (basenameOf p) = some a := by
          rw [habB, ← haab]
        obtain ⟨mid, tail, hpostdec⟩ := List.append_of_mem hmem2
        subst hpostdec
        have hrelsmid : fileRels (mid ++ WalkEntry.file rel2 c2 :: tail) =
            fileRels mid ++ rel2 :: fileRels tail := by
          rw [fileRels_append]
          rfl
        have hnodup3 := hnodup2
        rw [hrelsmid, List.nodup_append] at hnodup3
        have hp' := hnodup3.2.1
        rw [List.nodup_cons] at hp'
        have hmt := hp'.2
        rw [List.nodup_append] at hmt
        have hpnotmid : p ∉ fileRels mid := fun hc => hp'.1 (List.mem_append_left _ hc)
        have hpnottail : p ∉ fileRels tail :=
          fun hc => hp'.1 (List.mem_append_right _ (List.mem_cons_of_mem _ hc))
        have hrel2notmid : rel2 ∉ fileRels mid :=
          fun hc => hmt.2.2 hc (List.mem_cons_self _ _)
        have hrel2notpre : rel2 ∉ fileRels pre := by
          intro hc
          rw [hrelsmid] at hnodup2
          rw [List.nodup_append] at hnodup2
          exact hnodup2.2.2 hc (List.mem_cons_of_mem p
            (List.mem_append_right _ (List.mem_cons_self _ _)))
        have hnoabmid : (walkList (walkFileStep (walkList (buildReg expected) pre).1 p)
            mid).2 = false :=
          walkList_no_abort mid _ (fun d o hd =>
            hnofail d o (by
              rw [List.mem_append]
              exact Or.inr (List.mem_cons_of_mem _ (List.mem_append_left _ hd))))
        have wMid : WInv (buildReg expected)
            (walkList (walkFileStep (walkList (buildReg expected) pre).1 p) mid).1 :=
          walkList_winv inv mid _ hw2
        obtain ⟨rc, hrc, hrc_cr, hrc_from, _⟩ :=
          walkList_mono inv mid _ hw2 ha hst2heap hpnotmid
        have hrc_from2 : rc.fromIdx = some (Addr.src p) := hrc_from _ rfl
        obtain ⟨rc2, hrc2, _, _, hrc2_uniq, _⟩ := wMid.heap_pres a r0 hr0
        rw [hrc] at hrc2
        injection hrc2 with hrc2eq
        have hrc_uniq : rc.unique = true := by
          rw [← hrc2eq] at hrc2_uniq
          rw [hrc2_uniq, hr0uniq]
        have hreg2none : (buildReg expected).files rel2 = none := by
          cases hq : (buildReg expected).files rel2 with
          | none => rfl
          | some ax =>
              exact absurd ((inv.files_dom rel2).mp (by rw [hq] ; rfl)) hrel2nexp
        have hfrel2pre : ((walkList (buildReg expected) pre).1).files rel2 = none :=
          walkList_files_none pre _ hreg2none hrel2notpre
        have hfrel2E : (walkFileStep (walkList (buildReg expected) pre).1 p).files rel2 =
            none := by
          rw [walkFileStep_files_other p hrel2nep]
          exact hfrel2pre
        have hfrel2mid : ((walkList (walkFileStep (walkList (buildReg expected) pre).1 p)
            mid).1).files rel2 = none :=
          walkList_files_none mid _ hfrel2E hrel2notmid
        have hbbmid : ((walkList (walkFileStep (walkList (buildReg expected) pre).1 p)
            mid).1).byBase (basenameOf rel2) = some a := by
          rw [wMid.byBase_eq, hbeq]
          exact habBa
        have hane2 : a ≠ Addr.disc rel2 := by
          rw [hiexp]
          intro hc
          cases hc
        have hcc : upd ((walkList (walkFileStep (walkList (buildReg expected) pre).1 p)
            mid).1).heap (Addr.disc rel2) (discInfo rel2) a = some rc := by
          rw [upd_other _ _ hane2]
          exact hrc
        have hcu : ¬ rc.unique = false := by
          rw [hrc_uniq]
          intro hc
          cases hc
        have hstep3 : walkFileStep
            (walkList (walkFileStep (walkList (buildReg expected) pre).1 p) mid).1 rel2 =
            { discState (walkList (walkFileStep (walkList (buildReg expected) pre).1 p)
                mid).1 rel2 with
              heap := hmod (hmod (discState (walkList (walkFileStep
                  (walkList (buildReg expected) pre).1 p) mid).1 rel2).heap a
                (fun r => { r with ambiguious := true })) (Addr.disc rel2)
                (fun r => { r with ambiguious := true }) } :=
          wfs_amb hfrel2mid hbbmid hcc hcu hrc_from2
        have hamb3 : (walkFileStep
            (walkList (walkFileStep (walkList (buildReg expected) pre).1 p) mid).1
            rel2).heap a = some { rc with ambiguious := true } := by
          rw [hstep3]
          dsimp only
          rw [hmod_other _ _ hane2, hmod_same]
          rw [show (discState (walkList (walkFileStep
              (walkList (buildReg expected) pre).1 p) mid).1 rel2).heap a = some rc from by
            show upd _ (Addr.disc rel2) (discInfo rel2) a = some rc
            rw [upd_other _ _ hane2]
            exact hrc]
          rfl
        have hstep2 : walkStep
            (walkList (walkFileStep (walkList (buildReg expected) pre).1 p) mid).1
            (WalkEntry.file rel2 c2) =
            some (walkFileStep
              (walkList (walkFileStep (walkList (buildReg expected) pre).1 p) mid).1
              rel2) := by
          simp only [walkStep, if_pos hsuf2]
        have hw3 : WInv (buildReg expected)
            (walkFileStep
              (walkList (walkFileStep (walkList (buildReg expected) pre).1 p) mid).1
              rel2) :=
          walkStep_winv inv wMid hstep2
        obtain ⟨rz, hrz, _, _, hrz_amb⟩ :=
          walkList_mono inv tail _ hw3 ha hamb3 hpnottail
        have hrz_amb2 : rz.ambiguious = true := hrz_amb rfl
        have hsplit : walkList (walkFileStep (walkList (buildReg expected) pre).1 p)
            (mid ++ WalkEntry.file rel2 c2 :: tail) =
            walkList (walkFileStep
              (walkList (walkFileStep (walkList (buildReg expected) pre).1 p) mid).1
              rel2) tail := by
          rw [walkList_append, if_neg (by rw [hnoabmid] ; simp), walkList_cons, hstep2]
        have hfinz : ((walkList (buildReg expected)
            (pre ++ WalkEntry.file p content :: (mid ++ WalkEntry.file rel2 c2 :: tail))).1).heap
            a = some rz := by
          rw [hfinal, hsplit]
          exact hrz
        rw [hrfinF] at hfinz
        injection hfinz with hz
        rw [hz]
        exact hrz_amb2

/-- Witness for `c3_exact_match_amended`: expected `["a/x.go"]`, the exact
match `a/x.go` walked first, then the same-basename candidate `b/x.go`. -/
theorem c3_exact_match_amended_witness :
    ∃ a r,
      ((walkList (buildReg ["a/x.go"])
        ([WalkEntry.dir "a" MkdirOutcome.okMk] ++ WalkEntry.file "a/x.go" "GOOD" ::
          [WalkEntry.dir "b" MkdirOutcome.okMk, WalkEntry.file "b/x.go" "EVIL"])).1).files
          "a/x.go" = some a ∧
      ((walkList (buildReg ["a/x.go"])
        ([WalkEntry.dir "a" MkdirOutcome.okMk] ++ WalkEntry.file "a/x.go" "GOOD" ::
          [WalkEntry.dir "b" MkdirOutcome.okMk, WalkEntry.file "b/x.go" "EVIL"])).1).heap a =
        some r ∧
      r.created = true ∧ r.fromIdx = some (Addr.src "a/x.go") ∧ r.path = "a/x.go" ∧
      r.expected = true ∧
      ((∀ rel c, WalkEntry.file rel c ∈
          [WalkEntry.dir "a" MkdirOutcome.okMk] ++ WalkEntry.file "a/x.go" "GOOD" ::
            [WalkEntry.dir "b" MkdirOutcome.okMk, WalkEntry.file "b/x.go" "EVIL"] →
          rel ≠ "a/x.go" → basenameOf rel ≠ basenameOf "a/x.go") →
        r.ambiguious = false ∧
        ((runCore ["a/x.go"]
            ([WalkEntry.dir "a" MkdirOutcome.okMk] ++ WalkEntry.file "a/x.go" "GOOD" ::
              [WalkEntry.dir "b" MkdirOutcome.okMk, WalkEntry.file "b/x.go" "EVIL"])).2 =
            none →
          (runCore ["a/x.go"]
            ([WalkEntry.dir "a" MkdirOutcome.okMk] ++ WalkEntry.file "a/x.go" "GOOD" ::
              [WalkEntry.dir "b" MkdirOutcome.okMk,
                WalkEntry.file "b/x.go" "EVIL"])).1.lookup "a/x.go" = some "GOOD")) ∧
      (∀ rel c, WalkEntry.file rel c ∈
          [WalkEntry.dir "b" MkdirOutcome.okMk, WalkEntry.file "b/x.go" "EVIL"] →
        basenameOf rel = basenameOf "a/x.go" → hasSuffix rel ".go" = true →
        countBase ["a/x.go"] (basenameOf "a/x.go") = 1 → r.ambiguious = true) :=
  c3_exact_match_amended ["a/x.go"] [WalkEntry.dir "a" MkdirOutcome.okMk]
    [WalkEntry.dir "b" MkdirOutcome.okMk, WalkEntry.file "b/x.go" "EVIL"]
    "a/x.go" "GOOD" (by decide) (by decide) (by decide)
    (by
      intro d o hm
      simp only [List.cons_append, List.nil_append, List.mem_cons, List.not_mem_nil,
        or_false] at hm
      rcases hm with hm | hm | hm | hm
      · injection hm with h1 h2
        rw [h2]
        decide
      · cases hm
      · injection hm with h1 h2
        rw [h2]
        decide
      · cases hm)
    (by
      intro q hc
      have h2 : ("a/x.go" : String).data = ("tmp/" : String).data ++ q.data := by
        rw [hc]
        exact String.data_append _ _
      have h4 : ("a/x.go" : String).data = ['a', '/', 'x', '.', 'g', 'o'] := rfl
      have h5 : ("tmp/" : String).data = ['t', 'm', 'p', '/'] := rfl
      rw [h4, h5] at h2
      simp at h2)
